import Mathlib

/-!
# Ray-casting containment for polygons (`polygon.go`)

A shallow embedding of `polygon.go` and the properties established about it.

Modelling conventions.

* Coordinates are exact rationals: rounding and overflow of `float64` are not
  modelled, and every coordinate is finite.
* `math.Nextafter(x, math.Inf(1))` is a parameter `next : ℚ → ℚ`; theorems that
  need it assume `∀ x, x < next x`.
* A `*Point` is an address into a heap of immutable `Point` objects; `==` on
  `*Point` is equality of addresses. `NewPoint` allocates a fresh object.
* The receiver `*Polygon` is part of the state, so that a method that would
  assign `p.points` is visible as a state change.
* A nil or dangling pointer dereference and an out-of-range index are faults;
  the perturbation loop of `intersectsWithRaycast` runs on fuel.
* The two quotients of `intersectsWithRaycast` follow IEEE-754 for a zero
  denominator (`+Inf`, `-Inf`, `NaN`), and `>=` is false on `NaN`.
* The edge test has a second embedding, `intersectsWithRaycastF`, on float64 values
  (finite, `+Inf`, `-Inf`, `NaN`) with the IEEE-754 comparisons, in which subtraction,
  division and `Nextafter` are parameters; on finite coordinates and with operations
  that do not round it returns what the first embedding returns
  (`intersectsWithRaycastF_agrees`).
-/

namespace Geo

/-- Modelled from the spec: the `Point` type (declared outside `polygon.go`), an
immutable pair of coordinates `lat`, `lng`. -/
structure Point where
  lat : ℚ
  lng : ℚ
deriving DecidableEq, Repr

/-- A `*Point`: the address of a `Point` object in the heap. -/
abbrev Ptr := Nat

/-- A `Polygon` struct: its field `points []*Point`. -/
structure Polygon where
  points : List Ptr
deriving DecidableEq, Repr

/-- The program state: the allocated `Point` objects (an address is an index into
`heap`) and the receiver polygon `*p`. -/
structure State where
  heap : List Point
  poly : Polygon
deriving DecidableEq, Repr

/-- Run-time failures of the embedded code. -/
inductive Fault where
  | nilDeref
  | indexOutOfRange
  | outOfFuel
deriving DecidableEq, Repr

/-- Dereference of a `*Point`: `nilDeref` when `q` is not an allocated address. -/
def deref (s : State) (q : Ptr) : Except Fault Point :=
  match s.heap[q]? with
  | some v => .ok v
  | none => .error .nilDeref

/-- Slice indexing `p.points[i]` with a Go `int` index: `indexOutOfRange` when
`i < 0` or `i ≥ len`. -/
def index (xs : List Ptr) (i : Int) : Except Fault Ptr :=
  if i < 0 then .error .indexOutOfRange
  else
    match xs[i.toNat]? with
    | some q => .ok q
    | none => .error .indexOutOfRange

/-- Modelled from the spec: `NewPoint(lat, lng)` (declared outside `polygon.go`),
pure construction of a fresh `Point` object; returns its address. -/
def NewPoint (s : State) (lat lng : ℚ) : Ptr × State :=
  (s.heap.length, { s with heap := s.heap ++ [⟨lat, lng⟩] })

/-- Function `NewPolygon(points)`: the receiver polygon gets `points` as its field. -/
def NewPolygon (points : List Ptr) (s : State) : State :=
  { s with poly := ⟨points⟩ }

/-- Method `p.Points()`: the field `p.points`. -/
def Points (s : State) : List Ptr :=
  s.poly.points

/-- Method `p.Add(point)`: `p.points = append(p.points, point)`. -/
def Add (point : Ptr) (s : State) : State :=
  { s with poly := ⟨s.poly.points ++ [point]⟩ }

/-- Method `p.IsClosed()`: false when `len(p.points) < 3`, true otherwise. -/
def IsClosed (s : State) : Bool :=
  if s.poly.points.length < 3 then false else true

/-- A `float64` quotient: a finite value, an infinity, or `NaN`. -/
inductive FVal where
  | num (q : ℚ)
  | posInf
  | negInf
  | nan
deriving DecidableEq, Repr

/-- Division `a / b` of finite values; a zero denominator (always `+0`, being a
difference of equal values) gives `+Inf`, `-Inf` or `NaN` by the sign of `a`. -/
def fdiv (a b : ℚ) : FVal :=
  if b = 0 then
    if 0 < a then .posInf else if a < 0 then .negInf else .nan
  else .num (a / b)

/-- The comparison `x >= y` on quotients; false as soon as one side is `NaN`. -/
def fge : FVal → FVal → Bool
  | .nan, _ => false
  | _, .nan => false
  | .posInf, _ => true
  | _, .negInf => true
  | .negInf, _ => false
  | _, .posInf => false
  | .num a, .num b => decide (b ≤ a)

/-- Lines 102-108 of `intersectsWithRaycast`: while the point's `lng` equals an
endpoint's `lng`, replace the point by a fresh one whose `lng` is the next value.
Returns the final `point` pointer. -/
def perturbLoop (next : ℚ → ℚ) :
    Nat → State → Ptr → Ptr → Ptr → Except Fault (Ptr × State)
  | fuel, s, point, start, end_ => do
    let pv ← deref s point
    let sv ← deref s start
    let ev ← deref s end_
    if pv.lng = sv.lng ∨ pv.lng = ev.lng then
      match fuel with
      | 0 => .error .outOfFuel
      | fuel + 1 =>
        let newLng := next pv.lng
        let alloc := NewPoint s pv.lat newLng
        perturbLoop next fuel alloc.2 alloc.1 start end_
    else
      .ok (point, s)

/-- Lines 132-135 of `intersectsWithRaycast`: the slope comparison. -/
def slopeTest (pv sv ev : Point) : Bool :=
  let raySlope := fdiv (pv.lng - sv.lng) (pv.lat - sv.lat)
  let diagSlope := fdiv (ev.lng - sv.lng) (ev.lat - sv.lat)
  fge raySlope diagSlope

/-- Lines 110-135 of `intersectsWithRaycast`, on the dereferenced point and the
dereferenced (already ordered) endpoints. -/
def raycastBody (pv sv ev : Point) : Bool :=
  if pv.lng < sv.lng ∨ pv.lng > ev.lng then false
  else if sv.lat > ev.lat then
    if pv.lat > sv.lat then false
    else if pv.lat < ev.lat then true
    else slopeTest pv sv ev
  else
    if pv.lat > ev.lat then false
    else if pv.lat < sv.lat then true
    else slopeTest pv sv ev

/-- Method `p.intersectsWithRaycast(point, start, end)`: the endpoints are swapped when
`start.lng > end.lng`, the point is perturbed, and lines 110-135 decide. -/
def intersectsWithRaycast (next : ℚ → ℚ) (fuel : Nat) (s : State)
    (point start end_ : Ptr) : Except Fault (Bool × State) := do
  let sv ← deref s start
  let ev ← deref s end_
  let se : Ptr × Ptr := if sv.lng > ev.lng then (end_, start) else (start, end_)
  let r ← perturbLoop next fuel s point se.1 se.2
  let pv ← deref r.2 r.1
  let sv ← deref r.2 se.1
  let ev ← deref r.2 se.2
  pure (raycastBody pv sv ev, r.2)

/-- The type of an edge test: state, `point`, `start`, `end`. -/
abbrev EdgeTest := State → Ptr → Ptr → Ptr → Except Fault (Bool × State)

/-- Lines 66-70 of `Contains`: the loop of the branch without holes, from index
`i` with accumulator `contains`; `n` bounds the number of iterations left. -/
def loopSingle (test : EdgeTest) (point : Ptr) :
    Nat → Nat → Bool → State → Except Fault (Bool × State)
  | n, i, contains, s =>
    if i < s.poly.points.length then
      match n with
      | 0 => .error .outOfFuel
      | n + 1 => do
        let a ← index s.poly.points ((i : Int) - 1)
        let b ← index s.poly.points (i : Int)
        let r ← test s point a b
        loopSingle test point n (i + 1) (if r.1 then !contains else contains) r.2
    else
      .ok (contains, s)

/-- Lines 73-83 of `Contains`: the loop of the branch with holes, from index `i`
with marker `pt` and accumulator `contains`. The element `p.points[i-1]` of the
condition is read before `i != 1` is tested; it is in range whenever `i < len`. -/
def loopMulti (test : EdgeTest) (point : Ptr) :
    Nat → Nat → Ptr → Bool → State → Except Fault (Bool × State)
  | n, i, pt, contains, s =>
    if i < s.poly.points.length then
      match n with
      | 0 => .error .outOfFuel
      | n + 1 => do
        let a ← index s.poly.points ((i : Int) - 1)
        if i ≠ 1 ∧ pt = a then
          let a2 ← index s.poly.points ((i : Int) - 1)
          loopMulti test point n (i + 1) a2 contains s
        else
          let a2 ← index s.poly.points ((i : Int) - 1)
          let b ← index s.poly.points (i : Int)
          let r ← test s point a2 b
          loopMulti test point n (i + 1) pt (if r.1 then !contains else contains) r.2
    else
      .ok (contains, s)

/-- Method `p.Contains(point)`, lines 46-87, with the edge test it calls as a
parameter. -/
def ContainsWith (test : EdgeTest) (s : State) (point : Ptr) :
    Except Fault (Bool × State) :=
  if !IsClosed s then .ok (false, s)
  else do
    let start : Int := (s.poly.points.length : Int) - 1
    let end_ : Int := 0
    let contains := false
    let ps ← index s.poly.points start
    let pe ← index s.poly.points end_
    if ps = pe then
      loopSingle test point s.poly.points.length 1 contains s
    else
      let pt ← index s.poly.points 0
      loopMulti test point s.poly.points.length 1 pt contains s

/-- Method `p.Contains(point)`: the edge test is `p.intersectsWithRaycast`. -/
def Contains (next : ℚ → ℚ) (fuel : Nat) (s : State) (point : Ptr) :
    Except Fault (Bool × State) :=
  ContainsWith (intersectsWithRaycast next fuel) s point


/-- Value of the point's `lng` after the perturbation loop. -/
def perturbVal (next : ℚ → ℚ) (pl sl el : ℚ) : ℚ :=
  if pl = sl ∨ pl = el then
    if next pl = sl ∨ next pl = el then next (next pl) else next pl
  else pl

/-- Result of the edge test on dereferenced points. -/
def raycastVal (next : ℚ → ℚ) (P A B : Point) : Bool :=
  let S := if A.lng > B.lng then B else A
  let E := if A.lng > B.lng then A else B
  raycastBody ⟨P.lat, perturbVal next P.lng S.lng E.lng⟩ S E

/-- State `t` extends `s`: same polygon, heap grown at the end. -/
def Extends (s t : State) : Prop :=
  t.poly = s.poly ∧ ∃ extra, t.heap = s.heap ++ extra

/-- Parity of the edge tests `f` over the consecutive pairs of a pointer list. -/
def parityFrom (f : Ptr → Ptr → Bool) : List Ptr → Bool
  | a :: b :: rest => xor (f a b) (parityFrom f (b :: rest))
  | _ => false

/-- Parity of the edge tests `f` over the consecutive pairs of a pointer list, an
edge ending at index `i ≠ 1` being left out when it starts at the marker `p0`. -/
def parityMultiFrom (f : Ptr → Ptr → Bool) (p0 : Ptr) : Nat → List Ptr → Bool
  | i, a :: b :: rest =>
    xor (if i ≠ 1 ∧ p0 = a then false else f a b) (parityMultiFrom f p0 (i + 1) (b :: rest))
  | _, _ => false

/-- The edge test `test`, run with query pointer `point` in any state extending
`s0`, succeeds on the pointers of `pts` with the pure result `f` and extends the state. -/
def TestOk (test : EdgeTest) (point : Ptr) (pts : List Ptr) (f : Ptr → Ptr → Bool)
    (s0 : State) : Prop :=
  ∀ t, Extends s0 t → ∀ a ∈ pts, ∀ b ∈ pts,
    ∃ u, test t point a b = .ok (f a b, u) ∧ Extends t u

/-- The `Point` object at address `q` (a default point when `q` is not allocated). -/
def valOf (s : State) (q : Ptr) : Point :=
  (s.heap[q]?).getD ⟨0, 0⟩

/-- The pure edge test of a state: `raycastVal` on the objects the pointers address. -/
def edgeVal (next : ℚ → ℚ) (s : State) (P : Point) (a b : Ptr) : Bool :=
  raycastVal next P (valOf s a) (valOf s b)

/-- A concrete strictly increasing step, used to instantiate theorems that hold for every
strictly increasing `next`; it is coarser than the float64 successor. -/
def stepNext : ℚ → ℚ := fun x => x + 1 / 16

/-- The float64 successor near zero: for every float64 `x` with `0 ≤ x < 2^-1022`
consecutive float64 values are `2^-1074` apart, so `math.Nextafter(x, +Inf)` is
`x + 2^-1074`; in particular `math.Nextafter(0, +Inf) = 2^-1074` (about `5e-324`). -/
def nextSubnormal : ℚ → ℚ := fun x => x + 1 / 2 ^ 1074

/-- The unit square `[(0,0),(0,1),(1,1),(1,0)]`, closed with its first point object;
addresses 4 and 5 hold the query points `(0.5,0.5)` and `(2,2)`. -/
def unitSquare : State :=
  ⟨[⟨0, 0⟩, ⟨0, 1⟩, ⟨1, 1⟩, ⟨1, 0⟩, ⟨1 / 2, 1 / 2⟩, ⟨2, 2⟩], ⟨[0, 1, 2, 3, 0]⟩⟩

/-- The square `[(0,0),(0,4),(4,4),(4,0)]`, closed with its first point object;
addresses 4 to 7 hold the query points `(2,2)`, `(5,5)`, `(0,2)` and `(lat -1,lng 0)`. -/
def square4 : State :=
  ⟨[⟨0, 0⟩, ⟨0, 4⟩, ⟨4, 4⟩, ⟨4, 0⟩, ⟨2, 2⟩, ⟨5, 5⟩, ⟨0, 2⟩, ⟨-1, 0⟩], ⟨[0, 1, 2, 3, 0]⟩⟩

/-- An edge test that always fails. -/
def faultyTest : EdgeTest := fun _ _ _ _ => .error .nilDeref

/-- A state whose polygon has two points, the query point being at address 2 and
sharing its `lng` with the first point. -/
def twoPoints : State :=
  ⟨[⟨0, 0⟩, ⟨0, 4⟩, ⟨1, 0⟩], ⟨[0, 1]⟩⟩

/-- A state for the perturbation loop: the query point (address 2) has the `lng` of the
edge's first endpoint, and `stepNext` of it is the `lng` of the second endpoint. -/
def perturbTwice : State :=
  ⟨[⟨0, 0⟩, ⟨1, 1 / 16⟩, ⟨5, 0⟩], ⟨[]⟩⟩

/-- A state for the edge test: the edge `(lat 0,lng 0)`-`(lat 4,lng 2)` at addresses 0
and 1, and the query point `(lat 1,lng 1)` at address 2. -/
def slantedEdge : State :=
  ⟨[⟨0, 0⟩, ⟨4, 2⟩, ⟨1, 1⟩], ⟨[]⟩⟩

/-- The triangle `[(lat 0,lng 0),(lat 0,lng 4),(lat 4,lng 2)]` given as three distinct
point objects, without repeating the first point; address 3 holds the interior query
point `(lat 1,lng 1)`. -/
def triangle : State :=
  ⟨[⟨0, 0⟩, ⟨0, 4⟩, ⟨4, 2⟩, ⟨1, 1⟩], ⟨[0, 1, 2]⟩⟩

/-- A triangle closed with its first point object, whose second vertex has the `lng`
`2^-1074`, the float64 that follows the first vertex's `lng` 0; every coordinate is a
float64 value. Address 3 holds the query point `(lat -1,lng 0)`, below the bounding box. -/
def thinRing : State :=
  ⟨[⟨0, 0⟩, ⟨1, 1 / 2 ^ 1074⟩, ⟨0, 3⟩, ⟨-1, 0⟩], ⟨[0, 1, 2, 0]⟩⟩

/-- The square `[0,10] x [0,10]` with the square hole `[3,6] x [3,6]`, each ring closed
with its own first point object; addresses 8 and 9 hold the query points `(4,4)` (in the
hole) and `(1,1)` (in the outer square, off the hole). -/
def squareWithHole : State :=
  ⟨[⟨0, 0⟩, ⟨0, 10⟩, ⟨10, 10⟩, ⟨10, 0⟩, ⟨3, 3⟩, ⟨3, 6⟩, ⟨6, 6⟩, ⟨6, 3⟩, ⟨4, 4⟩, ⟨1, 1⟩],
    ⟨[0, 1, 2, 3, 0, 4, 5, 6, 7, 4]⟩⟩

/-- The pure result of `Contains` in state `s` for a query point with value `P`. -/
def containsVal (next : ℚ → ℚ) (s : State) (P : Point) : Bool :=
  if s.poly.points.length < 3 then false
  else if s.poly.points[s.poly.points.length - 1]? = s.poly.points[0]? then
    parityFrom (edgeVal next s P) s.poly.points
  else
    parityMultiFrom (edgeVal next s P) (s.poly.points.headD 0) 1 s.poly.points

/-- The Boolean that `p.intersectsWithRaycast(point, a, b)` returns when run in state `s`
(false when the run faults). -/
def edgeResult (next : ℚ → ℚ) (fuel : Nat) (s : State) (point a b : Ptr) : Bool :=
  match intersectsWithRaycast next fuel s point a b with
  | .ok r => r.1
  | .error _ => false

/-- Number of indices `i` in `1..n-1` whose edge `(pts[i-1], pts[i])` satisfies `f`. -/
def crossings (f : Ptr → Ptr → Bool) (pts : List Ptr) : Nat :=
  ((List.range' 1 (pts.length - 1)).filter
    (fun i => f (pts.getD (i - 1) 0) (pts.getD i 0))).length

/-- Number of indices `i` in `1..n-1` whose edge `(pts[i-1], pts[i])` satisfies `f` and
is not an edge with `i ≥ 2` that starts at the identical object as `pts[0]`. -/
def crossingsMulti (f : Ptr → Ptr → Bool) (pts : List Ptr) : Nat :=
  ((List.range' 1 (pts.length - 1)).filter
    (fun i => f (pts.getD (i - 1) 0) (pts.getD i 0) &&
      !(decide (2 ≤ i) && decide (pts.getD (i - 1) 0 = pts.getD 0 0)))).length

/-- Two triangles sharing their first vertex `A = (0,0)`, given as one ring
`[A,B,C,A,D,E,A]` in which the first point object also occurs in the middle; address 5
holds the query point `(lat 1,lng 3)`. -/
def pinchedRing : State :=
  ⟨[⟨0, 0⟩, ⟨0, 4⟩, ⟨4, 4⟩, ⟨0, -4⟩, ⟨4, -4⟩, ⟨1, 3⟩], ⟨[0, 1, 2, 0, 3, 4, 0]⟩⟩

/-- A state for the span rule of the edge test: the edge `(lat 0,lng 0)`-`(lat 4,lng 2)`
at addresses 0 and 1, a vertical edge from address 1 to address 2, and at address 3 a
query point whose `lng` is the larger endpoint `lng`. -/
def spanEdge : State :=
  ⟨[⟨0, 0⟩, ⟨4, 2⟩, ⟨7, 2⟩, ⟨1, 2⟩], ⟨[]⟩⟩

/-- The square `[(0,0),(0,4),(4,4),(4,0)]` closed with its first point object (address
0); address 4 holds a distinct point object with the coordinates of the first point, and
address 5 the query point `(2,2)`. -/
def squareTwoClosings : State :=
  ⟨[⟨0, 0⟩, ⟨0, 4⟩, ⟨4, 4⟩, ⟨4, 0⟩, ⟨0, 0⟩, ⟨2, 2⟩], ⟨[0, 1, 2, 3, 0]⟩⟩

/-- The square `[0,10] x [0,10]` with two square holes `[1,2] x [1,2]` and
`[5,6] x [5,6]`, each of the three rings closed with its own first point object; address
12 holds the query point `(lat 3,lng 4)`, inside the outer square and off both holes. -/
def twoHoles : State :=
  ⟨[⟨0, 0⟩, ⟨0, 10⟩, ⟨10, 10⟩, ⟨10, 0⟩, ⟨1, 1⟩, ⟨1, 2⟩, ⟨2, 2⟩, ⟨2, 1⟩,
    ⟨5, 5⟩, ⟨5, 6⟩, ⟨6, 6⟩, ⟨6, 5⟩, ⟨3, 4⟩],
    ⟨[0, 1, 2, 3, 0, 4, 5, 6, 7, 4, 8, 9, 10, 11, 8]⟩⟩

/-- The comparison `x < y` on float64 values; false as soon as one side is `NaN`. -/
def flt : FVal → FVal → Bool
  | .nan, _ => false
  | _, .nan => false
  | .negInf, .negInf => false
  | .negInf, _ => true
  | _, .negInf => false
  | .posInf, _ => false
  | _, .posInf => true
  | .num a, .num b => decide (a < b)

/-- The comparison `x > y` on float64 values: `y < x`. -/
def fgt (x y : FVal) : Bool := flt y x

/-- The comparison `x == y` on float64 values; false as soon as one side is `NaN`. -/
def feq : FVal → FVal → Bool
  | .num a, .num b => decide (a = b)
  | .posInf, .posInf => true
  | .negInf, .negInf => true
  | _, _ => false

/-- A `Point` with float64 coordinates: each of `lat`, `lng` is a finite value, an
infinity or `NaN` (the two zeros of float64 are one value here). -/
structure FPoint where
  lat : FVal
  lng : FVal
deriving DecidableEq, Repr

/-- The float64 operations the edge test uses besides comparisons: subtraction,
division and `math.Nextafter(x, math.Inf(1))`. They are parameters, so that a statement
proved for every `FloatOps` holds whatever their rounding is. -/
structure FloatOps where
  sub : FVal → FVal → FVal
  div : FVal → FVal → FVal
  next : FVal → FVal

/-- Lines 102-108 of `intersectsWithRaycast` on float64 values (the fresh point is a
value here): `none` when the fuel runs out. -/
def perturbLoopF (ops : FloatOps) : Nat → FPoint → FPoint → FPoint → Option FPoint
  | fuel, point, start, end_ =>
    if feq point.lng start.lng || feq point.lng end_.lng then
      match fuel with
      | 0 => none
      | fuel + 1 => perturbLoopF ops fuel ⟨point.lat, ops.next point.lng⟩ start end_
    else
      some point

/-- Lines 110-135 of `intersectsWithRaycast` on float64 values. -/
def raycastBodyF (ops : FloatOps) (point start end_ : FPoint) : Bool :=
  if flt point.lng start.lng || fgt point.lng end_.lng then false
  else if fgt start.lat end_.lat then
    if fgt point.lat start.lat then false
    else if flt point.lat end_.lat then true
    else fge (ops.div (ops.sub point.lng start.lng) (ops.sub point.lat start.lat))
      (ops.div (ops.sub end_.lng start.lng) (ops.sub end_.lat start.lat))
  else
    if fgt point.lat end_.lat then false
    else if flt point.lat start.lat then true
    else fge (ops.div (ops.sub point.lng start.lng) (ops.sub point.lat start.lat))
      (ops.div (ops.sub end_.lng start.lng) (ops.sub end_.lat start.lat))

/-- Method `p.intersectsWithRaycast(point, start, end)` on float64 values, `NaN` and the
infinities included: swap when `start.lng > end.lng`, perturb, then lines 110-135. -/
def intersectsWithRaycastF (ops : FloatOps) (fuel : Nat) (point start end_ : FPoint) :
    Option Bool :=
  let se : FPoint × FPoint := if fgt start.lng end_.lng then (end_, start) else (start, end_)
  match perturbLoopF ops fuel point se.1 se.2 with
  | none => none
  | some p => some (raycastBodyF ops p se.1 se.2)

/-- Subtraction of float64 values without rounding. -/
def fsubExact : FVal → FVal → FVal
  | .nan, _ => .nan
  | _, .nan => .nan
  | .posInf, .posInf => .nan
  | .negInf, .negInf => .nan
  | .posInf, _ => .posInf
  | .negInf, _ => .negInf
  | _, .posInf => .negInf
  | _, .negInf => .posInf
  | .num a, .num b => .num (a - b)

/-- Division of float64 values without rounding (a zero denominator counts as `+0`). -/
def fdivExact : FVal → FVal → FVal
  | .nan, _ => .nan
  | _, .nan => .nan
  | .num a, .num b => fdiv a b
  | .num _, _ => .num 0
  | .posInf, .num b => if b < 0 then .negInf else .posInf
  | .negInf, .num b => if b < 0 then .posInf else .negInf
  | _, _ => .nan

/-- Float64 operations without rounding. On a finite value `next` adds `2^-1074`, which
is the float64 successor for `0 ≤ x < 2^-1022`; on `-Inf` it is the most negative finite
float64; on `+Inf` and `NaN` it is the identity. -/
def exactOps : FloatOps where
  sub := fsubExact
  div := fdivExact
  next := fun x =>
    match x with
    | .num q => .num (nextSubnormal q)
    | .negInf => .num (-(2 ^ 1024 - 2 ^ 971))
    | y => y

/-- A point with finite coordinates as a float64 point. -/
def toF (P : Point) : FPoint := ⟨.num P.lat, .num P.lng⟩

/-- The Boolean of a run of the edge test, `none` when the run faults. -/
def outcome (r : Except Fault (Bool × State)) : Option Bool :=
  match r with
  | .ok v => some v.1
  | .error _ => none

theorem ok_bind {α β : Type} (a : α) (f : α → Except Fault β) :
    (Except.ok a >>= f) = f a := rfl

theorem Extends.refl (s : State) : Extends s s := ⟨rfl, [], by simp⟩

theorem Extends.trans {s t u : State} (h1 : Extends s t) (h2 : Extends t u) :
    Extends s u := by
  obtain ⟨p1, e1, he1⟩ := h1
  obtain ⟨p2, e2, he2⟩ := h2
  exact ⟨p2.trans p1, e1 ++ e2, by rw [he2, he1, List.append_assoc]⟩

theorem deref_eq_ok {s : State} {q : Ptr} {v : Point} :
    deref s q = .ok v ↔ s.heap[q]? = some v := by
  unfold deref
  cases h : s.heap[q]? <;> simp

theorem deref_extends {s t : State} (h : Extends s t) {q : Ptr} {v : Point}
    (hq : deref s q = .ok v) : deref t q = .ok v := by
  rw [deref_eq_ok] at hq ⊢
  obtain ⟨_, e, he⟩ := h
  rw [he]
  have hlt : q < s.heap.length := by
    by_contra hc
    rw [List.getElem?_eq_none (Nat.le_of_not_lt hc)] at hq
    cases hq
  rw [List.getElem?_append_left hlt]
  exact hq

theorem NewPoint_extends (s : State) (lat lng : ℚ) : Extends s (NewPoint s lat lng).2 :=
  ⟨rfl, [⟨lat, lng⟩], rfl⟩

theorem deref_NewPoint (s : State) (lat lng : ℚ) :
    deref (NewPoint s lat lng).2 (NewPoint s lat lng).1 = .ok ⟨lat, lng⟩ := by
  rw [deref_eq_ok]
  simp [NewPoint]

theorem perturbLoop_exit (next : ℚ → ℚ) (fuel : Nat) {s : State} {point start end_ : Ptr}
    {P S E : Point} (hP : deref s point = .ok P) (hS : deref s start = .ok S)
    (hE : deref s end_ = .ok E) (hc : ¬ (P.lng = S.lng ∨ P.lng = E.lng)) :
    perturbLoop next fuel s point start end_ = .ok (point, s) := by
  unfold perturbLoop
  simp only [hP, hS, hE, ok_bind, if_neg hc]

theorem perturbLoop_step (next : ℚ → ℚ) (fuel : Nat) {s : State} {point start end_ : Ptr}
    {P S E : Point} (hP : deref s point = .ok P) (hS : deref s start = .ok S)
    (hE : deref s end_ = .ok E) (hc : P.lng = S.lng ∨ P.lng = E.lng) :
    perturbLoop next (fuel + 1) s point start end_ =
      perturbLoop next fuel (NewPoint s P.lat (next P.lng)).2
        (NewPoint s P.lat (next P.lng)).1 start end_ := by
  conv_lhs => unfold perturbLoop
  simp only [hP, hS, hE, ok_bind, if_pos hc]

theorem perturbVal_ne (next : ℚ → ℚ) (hnext : ∀ x, x < next x) (pl sl el : ℚ) :
    perturbVal next pl sl el ≠ sl ∧ perturbVal next pl sl el ≠ el := by
  have h1 := hnext pl
  have h2 := hnext (next pl)
  unfold perturbVal
  split_ifs with hc hc2
  · constructor <;> intro h <;> rcases hc with hc | hc <;> rcases hc2 with hc2 | hc2 <;> linarith
  · exact ⟨fun h => hc2 (Or.inl h), fun h => hc2 (Or.inr h)⟩
  · exact ⟨fun h => hc (Or.inl h), fun h => hc (Or.inr h)⟩

theorem perturbLoop_spec (next : ℚ → ℚ) (hnext : ∀ x, x < next x) (fuel : Nat)
    (hf : 2 ≤ fuel) {s : State} {point start end_ : Ptr} {P S E : Point}
    (hP : deref s point = .ok P) (hS : deref s start = .ok S)
    (hE : deref s end_ = .ok E) :
    ∃ q t, perturbLoop next fuel s point start end_ = .ok (q, t) ∧ Extends s t ∧
      deref t q = .ok ⟨P.lat, perturbVal next P.lng S.lng E.lng⟩ ∧
      t.heap.length ≤ s.heap.length + 2 := by
  obtain ⟨f, rfl⟩ : ∃ f, fuel = f + 2 := ⟨fuel - 2, by omega⟩
  by_cases hc : P.lng = S.lng ∨ P.lng = E.lng
  · rw [perturbLoop_step next (f + 1) hP hS hE hc]
    have hx1 := NewPoint_extends s P.lat (next P.lng)
    have hP1 := deref_NewPoint s P.lat (next P.lng)
    have hS1 := deref_extends hx1 hS
    have hE1 := deref_extends hx1 hE
    by_cases hc2 : next P.lng = S.lng ∨ next P.lng = E.lng
    · rw [perturbLoop_step next f hP1 hS1 hE1 hc2]
      have hx2 := NewPoint_extends (NewPoint s P.lat (next P.lng)).2 P.lat (next (next P.lng))
      have hP2 := deref_NewPoint (NewPoint s P.lat (next P.lng)).2 P.lat (next (next P.lng))
      have hS2 := deref_extends hx2 hS1
      have hE2 := deref_extends hx2 hE1
      have hne := perturbVal_ne next hnext P.lng S.lng E.lng
      have hv : perturbVal next P.lng S.lng E.lng = next (next P.lng) := by
        unfold perturbVal
        rw [if_pos hc, if_pos hc2]
      rw [hv] at hne
      have hc3 : ¬ (next (next P.lng) = S.lng ∨ next (next P.lng) = E.lng) := by
        rintro (h | h)
        · exact hne.1 h
        · exact hne.2 h
      rw [perturbLoop_exit next f hP2 hS2 hE2 hc3]
      refine ⟨_, _, rfl, hx1.trans hx2, ?_, ?_⟩
      · rw [hv]; exact hP2
      · simp [NewPoint]
    · rw [perturbLoop_exit next (f + 1) hP1 hS1 hE1 hc2]
      refine ⟨_, _, rfl, hx1, ?_, ?_⟩
      · have hv : perturbVal next P.lng S.lng E.lng = next P.lng := by
          unfold perturbVal
          rw [if_pos hc, if_neg hc2]
        rw [hv]; exact hP1
      · simp [NewPoint]
  · rw [perturbLoop_exit next (f + 2) hP hS hE hc]
    refine ⟨_, _, rfl, Extends.refl s, ?_, by omega⟩
    have hv : perturbVal next P.lng S.lng E.lng = P.lng := by
      unfold perturbVal
      rw [if_neg hc]
    rw [hv]; exact hP

theorem intersectsWithRaycast_spec (next : ℚ → ℚ) (hnext : ∀ x, x < next x) (fuel : Nat)
    (hf : 2 ≤ fuel) {s : State} {point a b : Ptr} {P A B : Point}
    (hP : deref s point = .ok P) (hA : deref s a = .ok A) (hB : deref s b = .ok B) :
    ∃ t, intersectsWithRaycast next fuel s point a b = .ok (raycastVal next P A B, t) ∧
      Extends s t ∧ t.heap.length ≤ s.heap.length + 2 := by
  unfold intersectsWithRaycast raycastVal
  simp only [hA, hB, ok_bind]
  by_cases hsw : A.lng > B.lng
  · simp only [if_pos hsw]
    obtain ⟨q, t, hrun, hx, hq, hlen⟩ := perturbLoop_spec next hnext fuel hf hP hB hA
    rw [hrun]
    simp only [ok_bind, hq, deref_extends hx hA, deref_extends hx hB]
    exact ⟨t, rfl, hx, hlen⟩
  · simp only [if_neg hsw]
    obtain ⟨q, t, hrun, hx, hq, hlen⟩ := perturbLoop_spec next hnext fuel hf hP hA hB
    rw [hrun]
    simp only [ok_bind, hq, deref_extends hx hA, deref_extends hx hB]
    exact ⟨t, rfl, hx, hlen⟩

theorem index_nat {xs : List Ptr} {i : Nat} (h : i < xs.length) :
    index xs (i : Int) = .ok xs[i] := by
  unfold index
  simp [List.getElem?_eq_getElem h]

theorem index_pred {xs : List Ptr} {j : Nat} (h : j < xs.length) :
    index xs (((j + 1 : Nat) : Int) - 1) = .ok xs[j] := by
  have : ((j + 1 : Nat) : Int) - 1 = (j : Int) := by push_cast; ring
  rw [this]
  exact index_nat h

theorem parityFrom_drop (f : Ptr → Ptr → Bool) (xs : List Ptr) (j : Nat)
    (h : j + 1 < xs.length) :
    parityFrom f (xs.drop j) =
      xor (f (xs[j]) xs[j + 1]) (parityFrom f (xs.drop (j + 1))) := by
  have h1 : xs.drop j = xs[j] :: xs.drop (j + 1) := List.drop_eq_getElem_cons (by omega)
  have h2 : xs.drop (j + 1) = xs[j + 1] :: xs.drop (j + 2) := List.drop_eq_getElem_cons h
  rw [h1, h2, parityFrom, ← h2]

theorem parityFrom_drop_end (f : Ptr → Ptr → Bool) (xs : List Ptr) (j : Nat)
    (h : xs.length ≤ j + 1) : parityFrom f (xs.drop j) = false := by
  have hl : (xs.drop j).length ≤ 1 := by rw [List.length_drop]; omega
  match hd : xs.drop j, hl with
  | [], _ => rfl
  | [_], _ => rfl
  | _ :: _ :: _, hl => simp at hl

theorem parityMultiFrom_drop (f : Ptr → Ptr → Bool) (p0 : Ptr) (xs : List Ptr) (j : Nat)
    (h : j + 1 < xs.length) :
    parityMultiFrom f p0 (j + 1) (xs.drop j) =
      xor (if j + 1 ≠ 1 ∧ p0 = xs[j] then false else f (xs[j]) xs[j + 1])
        (parityMultiFrom f p0 (j + 2) (xs.drop (j + 1))) := by
  have h1 : xs.drop j = xs[j] :: xs.drop (j + 1) := List.drop_eq_getElem_cons (by omega)
  have h2 : xs.drop (j + 1) = xs[j + 1] :: xs.drop (j + 2) := List.drop_eq_getElem_cons h
  rw [h1, h2, parityMultiFrom, ← h2]

theorem parityMultiFrom_drop_end (f : Ptr → Ptr → Bool) (p0 : Ptr) (xs : List Ptr)
    (i j : Nat) (h : xs.length ≤ j + 1) : parityMultiFrom f p0 i (xs.drop j) = false := by
  have hl : (xs.drop j).length ≤ 1 := by rw [List.length_drop]; omega
  match hd : xs.drop j, hl with
  | [], _ => rfl
  | [_], _ => rfl
  | _ :: _ :: _, hl => simp at hl

theorem loopSingle_spec (test : EdgeTest) (point : Ptr) (f : Ptr → Ptr → Bool) (s0 : State)
    (hT : TestOk test point s0.poly.points f s0) :
    ∀ (n j : Nat) (c : Bool) (t : State), Extends s0 t → s0.poly.points.length ≤ j + 1 + n →
      ∃ u, loopSingle test point n (j + 1) c t =
          .ok (xor c (parityFrom f (s0.poly.points.drop j)), u) ∧ Extends t u := by
  intro n
  induction n with
  | zero =>
    intro j c t hx hn
    unfold loopSingle
    have hnot : ¬ (j + 1 < t.poly.points.length) := by rw [hx.1]; omega
    rw [if_neg hnot, parityFrom_drop_end f _ j (by omega)]
    exact ⟨t, by simp, Extends.refl t⟩
  | succ n ih =>
    intro j c t hx hn
    unfold loopSingle
    by_cases hlt : j + 1 < s0.poly.points.length
    · have hlt2 : j + 1 < t.poly.points.length := by rw [hx.1]; exact hlt
      have hj : j < s0.poly.points.length := by omega
      rw [if_pos hlt2]
      simp only [hx.1, index_pred hj, index_nat hlt, ok_bind]
      obtain ⟨u, hu, hxu⟩ := hT t hx _ (List.getElem_mem hj) _ (List.getElem_mem hlt)
      rw [hu]
      simp only [ok_bind]
      obtain ⟨w, hw, hxw⟩ := ih (j + 1)
        (if f s0.poly.points[j] s0.poly.points[j + 1] = true then !c else c) u
        (hx.trans hxu) (by omega)
      refine ⟨w, ?_, hxu.trans hxw⟩
      rw [hw, parityFrom_drop f _ j hlt]
      cases f s0.poly.points[j] s0.poly.points[j + 1] <;> cases c <;> simp
    · have hnot : ¬ (j + 1 < t.poly.points.length) := by rw [hx.1]; exact hlt
      rw [if_neg hnot, parityFrom_drop_end f _ j (by omega)]
      exact ⟨t, by simp, Extends.refl t⟩

theorem loopMulti_spec (test : EdgeTest) (point : Ptr) (f : Ptr → Ptr → Bool) (s0 : State)
    (p0 : Ptr) (hT : TestOk test point s0.poly.points f s0) :
    ∀ (n j : Nat) (c : Bool) (t : State), Extends s0 t → s0.poly.points.length ≤ j + 1 + n →
      ∃ u, loopMulti test point n (j + 1) p0 c t =
          .ok (xor c (parityMultiFrom f p0 (j + 1) (s0.poly.points.drop j)), u) ∧
        Extends t u := by
  intro n
  induction n with
  | zero =>
    intro j c t hx hn
    unfold loopMulti
    have hnot : ¬ (j + 1 < t.poly.points.length) := by rw [hx.1]; omega
    rw [if_neg hnot, parityMultiFrom_drop_end f p0 _ _ j (by omega)]
    exact ⟨t, by simp, Extends.refl t⟩
  | succ n ih =>
    intro j c t hx hn
    unfold loopMulti
    by_cases hlt : j + 1 < s0.poly.points.length
    · have hlt2 : j + 1 < t.poly.points.length := by rw [hx.1]; exact hlt
      have hj : j < s0.poly.points.length := by omega
      rw [if_pos hlt2]
      simp only [hx.1, index_pred hj, index_nat hlt, ok_bind]
      rw [parityMultiFrom_drop f p0 _ j hlt]
      by_cases hskip : j + 1 ≠ 1 ∧ p0 = s0.poly.points[j]
      · rw [if_pos hskip, if_pos hskip]
        obtain ⟨w, hw, hxw⟩ := ih (j + 1) c t hx (by omega)
        refine ⟨w, ?_, hxw⟩
        rw [← hskip.2, hw]
        simp
      · rw [if_neg hskip, if_neg hskip]
        obtain ⟨u, hu, hxu⟩ := hT t hx _ (List.getElem_mem hj) _ (List.getElem_mem hlt)
        rw [hu]
        simp only [ok_bind]
        obtain ⟨w, hw, hxw⟩ := ih (j + 1)
          (if f s0.poly.points[j] s0.poly.points[j + 1] = true then !c else c) u
          (hx.trans hxu) (by omega)
        refine ⟨w, ?_, hxu.trans hxw⟩
        rw [hw]
        cases f s0.poly.points[j] s0.poly.points[j + 1] <;> cases c <;> simp
    · have hnot : ¬ (j + 1 < t.poly.points.length) := by rw [hx.1]; exact hlt
      rw [if_neg hnot, parityMultiFrom_drop_end f p0 _ _ j (by omega)]
      exact ⟨t, by simp, Extends.refl t⟩

theorem index_last {xs : List Ptr} {m : Nat} (h : xs.length = m + 1) :
    index xs ((xs.length : Int) - 1) = .ok xs[m] := by
  have hm : m < xs.length := by omega
  have : (xs.length : Int) - 1 = (m : Int) := by rw [h]; push_cast; ring
  rw [this]
  exact index_nat hm

theorem isClosed_of_three {s : State} (h : 3 ≤ s.poly.points.length) : IsClosed s = true := by
  unfold IsClosed
  rw [if_neg (by omega)]

theorem ContainsWith_single (test : EdgeTest) (point : Ptr) (f : Ptr → Ptr → Bool) (s : State)
    (hT : TestOk test point s.poly.points f s) (hlen : 3 ≤ s.poly.points.length)
    (hid : s.poly.points[s.poly.points.length - 1]? = s.poly.points[0]?) :
    ∃ u, ContainsWith test s point = .ok (parityFrom f s.poly.points, u) ∧ Extends s u := by
  obtain ⟨m, hm⟩ : ∃ m, s.poly.points.length = m + 1 :=
    ⟨s.poly.points.length - 1, by omega⟩
  have h0 : 0 < s.poly.points.length := by omega
  have hmlt : m < s.poly.points.length := by omega
  have hid2 : s.poly.points[m] = s.poly.points[0] := by
    have hm2 : s.poly.points.length - 1 = m := by omega
    rw [hm2, List.getElem?_eq_getElem hmlt, List.getElem?_eq_getElem h0] at hid
    exact Option.some.inj hid
  unfold ContainsWith
  simp only [isClosed_of_three hlen, Bool.not_true, Bool.false_eq_true, if_false,
    index_last hm, ok_bind]
  have hi0 : index s.poly.points 0 = .ok s.poly.points[0] := index_nat h0
  simp only [hi0, ok_bind, if_pos hid2]
  obtain ⟨u, hu, hxu⟩ := loopSingle_spec test point f s hT s.poly.points.length 0 false s
    (Extends.refl s) (by omega)
  exact ⟨u, by simpa using hu, hxu⟩

theorem ContainsWith_multi (test : EdgeTest) (point : Ptr) (f : Ptr → Ptr → Bool) (s : State)
    (hT : TestOk test point s.poly.points f s) (hlen : 3 ≤ s.poly.points.length)
    (hid : s.poly.points[s.poly.points.length - 1]? ≠ s.poly.points[0]?) :
    ∃ u, ContainsWith test s point =
        .ok (parityMultiFrom f s.poly.points[0] 1 s.poly.points, u) ∧
      Extends s u := by
  obtain ⟨m, hm⟩ : ∃ m, s.poly.points.length = m + 1 :=
    ⟨s.poly.points.length - 1, by omega⟩
  have h0 : 0 < s.poly.points.length := by omega
  have hmlt : m < s.poly.points.length := by omega
  have hid2 : s.poly.points[m] ≠ s.poly.points[0] := by
    have hm2 : s.poly.points.length - 1 = m := by omega
    rw [hm2, List.getElem?_eq_getElem hmlt, List.getElem?_eq_getElem h0] at hid
    exact fun h => hid (congrArg some h)
  unfold ContainsWith
  simp only [isClosed_of_three hlen, Bool.not_true, Bool.false_eq_true, if_false,
    index_last hm, ok_bind]
  have hi0 : index s.poly.points 0 = .ok s.poly.points[0] := index_nat h0
  simp only [hi0, ok_bind, if_neg hid2]
  obtain ⟨u, hu, hxu⟩ := loopMulti_spec test point f s s.poly.points[0] hT
    s.poly.points.length 0 false s (Extends.refl s) (by omega)
  exact ⟨u, by simpa using hu, hxu⟩

theorem testOk_raycast (next : ℚ → ℚ) (hnext : ∀ x, x < next x) (fuel : Nat) (hf : 2 ≤ fuel)
    (s0 : State) (point : Ptr) (pts : List Ptr) (P : Point) (val : Ptr → Point)
    (hP : deref s0 point = .ok P) (hpts : ∀ q ∈ pts, deref s0 q = .ok (val q)) :
    TestOk (intersectsWithRaycast next fuel) point pts
      (fun a b => raycastVal next P (val a) (val b)) s0 := by
  intro t hx a ha b hb
  obtain ⟨u, hu, hxu, _⟩ := intersectsWithRaycast_spec next hnext fuel hf
    (deref_extends hx hP) (deref_extends hx (hpts a ha)) (deref_extends hx (hpts b hb))
  exact ⟨u, hu, hxu⟩

theorem deref_valOf {s : State} {q : Ptr} {v : Point} (h : deref s q = .ok v) :
    valOf s q = v := by
  rw [deref_eq_ok] at h
  simp [valOf, h]

theorem deref_valOf_of_valid {s : State} {pts : List Ptr}
    (h : ∀ q ∈ pts, ∃ v, deref s q = .ok v) : ∀ q ∈ pts, deref s q = .ok (valOf s q) := by
  intro q hq
  obtain ⟨v, hv⟩ := h q hq
  rw [deref_valOf hv]
  exact hv

theorem valid_of_lt {s : State} {pts : List Ptr} (h : ∀ q ∈ pts, q < s.heap.length) :
    ∀ q ∈ pts, ∃ v, deref s q = .ok v := by
  intro q hq
  exact ⟨_, deref_eq_ok.mpr (List.getElem?_eq_getElem (h q hq))⟩

theorem Contains_single (next : ℚ → ℚ) (hnext : ∀ x, x < next x) (fuel : Nat) (hf : 2 ≤ fuel)
    (s : State) (point : Ptr) (P : Point) (hP : deref s point = .ok P)
    (hv : ∀ q ∈ s.poly.points, ∃ v, deref s q = .ok v) (hlen : 3 ≤ s.poly.points.length)
    (hid : s.poly.points[s.poly.points.length - 1]? = s.poly.points[0]?) :
    ∃ u, Contains next fuel s point = .ok (parityFrom (edgeVal next s P) s.poly.points, u) ∧
      Extends s u :=
  ContainsWith_single _ point _ s
    (testOk_raycast next hnext fuel hf s point _ P (valOf s) hP (deref_valOf_of_valid hv))
    hlen hid

theorem Contains_multi (next : ℚ → ℚ) (hnext : ∀ x, x < next x) (fuel : Nat) (hf : 2 ≤ fuel)
    (s : State) (point : Ptr) (P : Point) (hP : deref s point = .ok P)
    (hv : ∀ q ∈ s.poly.points, ∃ v, deref s q = .ok v) (hlen : 3 ≤ s.poly.points.length)
    (hid : s.poly.points[s.poly.points.length - 1]? ≠ s.poly.points[0]?) :
    ∃ u, Contains next fuel s point =
        .ok (parityMultiFrom (edgeVal next s P) s.poly.points[0] 1 s.poly.points, u) ∧
      Extends s u :=
  ContainsWith_multi _ point _ s
    (testOk_raycast next hnext fuel hf s point _ P (valOf s) hP (deref_valOf_of_valid hv))
    hlen hid

theorem raycastVal_vertical (next : ℚ → ℚ) (hnext : ∀ x, x < next x) (P : Point)
    (y0 y1 x : ℚ) : raycastVal next P ⟨y0, x⟩ ⟨y1, x⟩ = false := by
  have hne := (perturbVal_ne next hnext P.lng x x).1
  unfold raycastVal raycastBody
  simp only [gt_iff_lt, lt_irrefl, if_false]
  rcases lt_or_gt_of_ne hne with h | h
  · rw [if_pos (Or.inl h)]
  · rw [if_pos (Or.inr h)]

theorem raycastVal_horizontal (next : ℚ → ℚ) (hnext : ∀ x, x < next x) (P : Point)
    (y x0 x1 : ℚ) (h : x0 < x1) :
    raycastVal next P ⟨y, x0⟩ ⟨y, x1⟩ =
        decide (x0 < perturbVal next P.lng x0 x1 ∧ perturbVal next P.lng x0 x1 < x1 ∧
          P.lat ≤ y) ∧
      raycastVal next P ⟨y, x1⟩ ⟨y, x0⟩ =
        decide (x0 < perturbVal next P.lng x0 x1 ∧ perturbVal next P.lng x0 x1 < x1 ∧
          P.lat ≤ y) := by
  obtain ⟨hn0, hn1⟩ := perturbVal_ne next hnext P.lng x0 x1
  have key : raycastBody ⟨P.lat, perturbVal next P.lng x0 x1⟩ ⟨y, x0⟩ ⟨y, x1⟩ =
      decide (x0 < perturbVal next P.lng x0 x1 ∧ perturbVal next P.lng x0 x1 < x1 ∧
        P.lat ≤ y) := by
    generalize perturbVal next P.lng x0 x1 = p at hn0 hn1
    unfold raycastBody
    simp only [gt_iff_lt, lt_irrefl, if_false]
    by_cases hout : p < x0 ∨ x1 < p
    · rw [if_pos hout]
      symm
      rw [decide_eq_false_iff_not]
      rintro ⟨h1, h2, _⟩
      rcases hout with ho | ho <;> linarith
    · rw [if_neg hout]
      push_neg at hout
      have h1 : x0 < p := lt_of_le_of_ne hout.1 (Ne.symm hn0)
      have h2 : p < x1 := lt_of_le_of_ne hout.2 hn1
      by_cases hgt : y < P.lat
      · rw [if_pos hgt]
        symm
        rw [decide_eq_false_iff_not]
        rintro ⟨_, _, h3⟩
        linarith
      · rw [if_neg hgt]
        push_neg at hgt
        have hd : decide (x0 < p ∧ p < x1 ∧ P.lat ≤ y) = true :=
          decide_eq_true ⟨h1, h2, hgt⟩
        rw [hd]
        by_cases hlt : P.lat < y
        · rw [if_pos hlt]
        · rw [if_neg hlt]
          have he : P.lat = y := le_antisymm hgt (not_lt.mp hlt)
          have hp1 : 0 < p - x0 := by linarith
          have hp2 : 0 < x1 - x0 := by linarith
          simp [slopeTest, fdiv, he, hp1, hp2, fge]
  constructor
  · unfold raycastVal
    simp only [gt_iff_lt, if_neg (not_lt.mpr h.le)]
    exact key
  · unfold raycastVal
    simp only [gt_iff_lt, if_pos h]
    exact key

theorem stepNext_lt (x : ℚ) : x < stepNext x := by
  unfold stepNext
  linarith

theorem rect_parity (next : ℚ → ℚ) (hnext : ∀ x, x < next x) (P : Point) (a b c d : ℚ)
    (hab : a < b) (hcd : c < d) :
    xor (raycastVal next P ⟨a, c⟩ ⟨a, d⟩) (xor (raycastVal next P ⟨a, d⟩ ⟨b, d⟩)
      (xor (raycastVal next P ⟨b, d⟩ ⟨b, c⟩) (xor (raycastVal next P ⟨b, c⟩ ⟨a, c⟩) false))) =
    decide (c < perturbVal next P.lng c d ∧ perturbVal next P.lng c d < d ∧
      a < P.lat ∧ P.lat ≤ b) := by
  rw [(raycastVal_horizontal next hnext P a c d hcd).1,
    (raycastVal_horizontal next hnext P b c d hcd).2,
    raycastVal_vertical next hnext P a b d, raycastVal_vertical next hnext P b a c]
  generalize perturbVal next P.lng c d = p
  by_cases h1 : c < p <;> by_cases h2 : p < d <;> by_cases h3 : P.lat ≤ a <;>
    by_cases h4 : P.lat ≤ b <;> simp [h1, h2, h3, h4] <;> linarith

theorem perturbVal_of_ne (next : ℚ → ℚ) {pl sl el : ℚ} (h1 : pl ≠ sl) (h2 : pl ≠ el) :
    perturbVal next pl sl el = pl := by
  unfold perturbVal
  rw [if_neg (by rintro (h | h) <;> contradiction)]

/-- C1: for an axis-aligned rectangle `a < b`, `c < d` given as the closed ring
`[(a,c),(a,d),(b,d),(b,c)]` followed by the first point object again, `Contains(P)`
returns true when `P` is strictly inside and false when `P` is strictly outside the
closed rectangle. -/
theorem C1_rectangle (next : ℚ → ℚ) (hnext : ∀ x, x < next x) (fuel : Nat) (hf : 2 ≤ fuel)
    (s : State) (pA pB pC pD point : Ptr) (a b c d : ℚ) (P : Point)
    (hab : a < b) (hcd : c < d)
    (hA : deref s pA = .ok ⟨a, c⟩) (hB : deref s pB = .ok ⟨a, d⟩)
    (hC : deref s pC = .ok ⟨b, d⟩) (hD : deref s pD = .ok ⟨b, c⟩)
    (hP : deref s point = .ok P) (hpts : s.poly.points = [pA, pB, pC, pD, pA]) :
    ((a < P.lat ∧ P.lat < b ∧ c < P.lng ∧ P.lng < d) →
        ∃ u, Contains next fuel s point = .ok (true, u)) ∧
    ((P.lat < a ∨ P.lat > b ∨ P.lng < c ∨ P.lng > d) →
        ∃ u, Contains next fuel s point = .ok (false, u)) := by
  have hv : ∀ q ∈ s.poly.points, ∃ v, deref s q = .ok v := by
    rw [hpts]
    intro q hq
    simp only [List.mem_cons, List.mem_singleton, List.not_mem_nil, or_false] at hq
    rcases hq with rfl | rfl | rfl | rfl | rfl
    exacts [⟨_, hA⟩, ⟨_, hB⟩, ⟨_, hC⟩, ⟨_, hD⟩, ⟨_, hA⟩]
  obtain ⟨u, hu, _⟩ := Contains_single next hnext fuel hf s point P hP hv
    (by rw [hpts]; simp) (by rw [hpts]; simp)
  have hval : parityFrom (edgeVal next s P) s.poly.points =
      decide (c < perturbVal next P.lng c d ∧ perturbVal next P.lng c d < d ∧
        a < P.lat ∧ P.lat ≤ b) := by
    rw [hpts, ← rect_parity next hnext P a b c d hab hcd]
    simp only [parityFrom, edgeVal, deref_valOf hA, deref_valOf hB, deref_valOf hC,
      deref_valOf hD]
  rw [hval] at hu
  constructor
  · rintro ⟨h1, h2, h3, h4⟩
    refine ⟨u, ?_⟩
    rw [hu, perturbVal_of_ne next (ne_of_gt h3) (ne_of_lt h4)]
    simp [h1, h2.le, h3, h4]
  · intro hout
    refine ⟨u, ?_⟩
    rw [hu]
    have hfalse : ¬ (c < perturbVal next P.lng c d ∧ perturbVal next P.lng c d < d ∧
        a < P.lat ∧ P.lat ≤ b) := by
      rintro ⟨h1, h2, h3, h4⟩
      rcases hout with h | h | h | h
      · linarith
      · linarith
      · rw [perturbVal_of_ne next (ne_of_lt h) (ne_of_lt (h.trans hcd))] at h1
        linarith
      · rw [perturbVal_of_ne next (ne_of_gt (hcd.trans h)) (ne_of_gt h)] at h2
        linarith
    rw [decide_eq_false hfalse]

/-- Witness of C1: the unit square with `(0.5,0.5)` inside and `(2,2)` outside. -/
theorem C1_rectangle_witness :
    (∃ u, Contains stepNext 2 unitSquare 4 = .ok (true, u)) ∧
    (∃ u, Contains stepNext 2 unitSquare 5 = .ok (false, u)) :=
  ⟨(C1_rectangle stepNext stepNext_lt 2 (le_refl 2) unitSquare 0 1 2 3 4 0 1 0 1 ⟨1 / 2, 1 / 2⟩
      (by norm_num) (by norm_num) rfl rfl rfl rfl rfl rfl).1
      ⟨by norm_num, by norm_num, by norm_num, by norm_num⟩,
   (C1_rectangle stepNext stepNext_lt 2 (le_refl 2) unitSquare 0 1 2 3 5 0 1 0 1 ⟨2, 2⟩
      (by norm_num) (by norm_num) rfl rfl rfl rfl rfl rfl).2
      (Or.inr (Or.inl (by norm_num)))⟩

/-- C5: on a polygon with fewer than 3 points `Contains` returns false and leaves the
state as it is, whatever the edge test would do (even one that always fails): no edge
test is evaluated and no index or pointer fault is reached. -/
theorem C5_fewer_than_three (s : State) (point : Ptr) (h : s.poly.points.length < 3) :
    (∀ test : EdgeTest, ContainsWith test s point = .ok (false, s)) ∧
    (∀ (next : ℚ → ℚ) (fuel : Nat), Contains next fuel s point = .ok (false, s)) := by
  have hc : IsClosed s = false := by
    unfold IsClosed
    rw [if_pos h]
  have key : ∀ test : EdgeTest, ContainsWith test s point = .ok (false, s) := by
    intro test
    unfold ContainsWith
    simp [hc]
  exact ⟨key, fun next fuel => key _⟩

/-- Witness of C5: two points, with an always-failing edge test and with fuel 0. -/
theorem C5_fewer_than_three_witness :
    twoPoints.poly.points.length < 3 ∧
    ContainsWith faultyTest twoPoints 2 = .ok (false, twoPoints) ∧
    Contains stepNext 0 twoPoints 2 = .ok (false, twoPoints) :=
  ⟨by decide, (C5_fewer_than_three twoPoints 2 (by decide)).1 faultyTest,
    (C5_fewer_than_three twoPoints 2 (by decide)).2 stepNext 0⟩

/-- C6: `IsClosed` is true exactly when the polygon has at least 3 points, whatever
the heap (the coordinates) holds. -/
theorem C6_isClosed_iff (s : State) : IsClosed s = true ↔ 3 ≤ (Points s).length := by
  unfold IsClosed Points
  by_cases h : s.poly.points.length < 3
  · rw [if_pos h]
    constructor
    · intro hc; cases hc
    · intro h3; omega
  · rw [if_neg h]
    constructor
    · intro _; omega
    · intro _; rfl

/-- C7: after `Add(q)` the points are the former points followed by `q` (one more
element, `q` last, the earlier ones unchanged), the `Point` objects are untouched, and
`Points()` of `NewPolygon(ps)` is `ps`. -/
theorem C7_add_appends (s : State) (q : Ptr) (ps : List Ptr) :
    Points (Add q s) = Points s ++ [q] ∧
    (Points (Add q s)).length = (Points s).length + 1 ∧
    (Points (Add q s)).getLast? = some q ∧
    (Points (Add q s)).take (Points s).length = Points s ∧
    (Add q s).heap = s.heap ∧
    Points (NewPolygon ps s) = ps ∧
    (NewPolygon ps s).heap = s.heap := by
  refine ⟨rfl, ?_, ?_, ?_, rfl, rfl, rfl⟩
  · simp [Points, Add]
  · simp [Points, Add]
  · simp [Points, Add]

/-- C9: with `next` strictly increasing and fuel for two iterations, the perturbation
loop returns; it allocates at most two perturbed points (at most two perturbations), the
final point has a `lng` different from both endpoints' `lng` and the original `lat`, and
the endpoints are as before. -/
theorem C9_perturb_terminates (next : ℚ → ℚ) (hnext : ∀ x, x < next x) (fuel : Nat)
    (hf : 2 ≤ fuel) (s : State) (point start end_ : Ptr) (P S E : Point)
    (hP : deref s point = .ok P) (hS : deref s start = .ok S) (hE : deref s end_ = .ok E) :
    ∃ q t P', perturbLoop next fuel s point start end_ = .ok (q, t) ∧
      t.heap.length ≤ s.heap.length + 2 ∧ t.heap.take s.heap.length = s.heap ∧
      t.poly = s.poly ∧
      deref t q = .ok P' ∧ deref t start = .ok S ∧ deref t end_ = .ok E ∧
      P'.lng ≠ S.lng ∧ P'.lng ≠ E.lng ∧ P'.lat = P.lat := by
  obtain ⟨q, t, hrun, hx, hq, hlen⟩ := perturbLoop_spec next hnext fuel hf hP hS hE
  obtain ⟨hn1, hn2⟩ := perturbVal_ne next hnext P.lng S.lng E.lng
  refine ⟨q, t, _, hrun, hlen, ?_, hx.1, hq, deref_extends hx hS, deref_extends hx hE,
    hn1, hn2, rfl⟩
  obtain ⟨_, e, he⟩ := hx
  rw [he, List.take_left]

/-- Witness of C9: a point that needs two perturbations, run with fuel 2. -/
theorem C9_perturb_terminates_witness :
    ∃ q t P', perturbLoop stepNext 2 perturbTwice 2 0 1 = .ok (q, t) ∧
      t.heap.length ≤ perturbTwice.heap.length + 2 ∧
      t.heap.take perturbTwice.heap.length = perturbTwice.heap ∧
      t.poly = perturbTwice.poly ∧
      deref t q = .ok P' ∧ deref t 0 = .ok ⟨0, 0⟩ ∧ deref t 1 = .ok ⟨1, 1 / 16⟩ ∧
      P'.lng ≠ (0 : ℚ) ∧ P'.lng ≠ (1 / 16 : ℚ) ∧ P'.lat = (5 : ℚ) :=
  C9_perturb_terminates stepNext stepNext_lt 2 (le_refl 2) perturbTwice 2 0 1
    ⟨5, 0⟩ ⟨0, 0⟩ ⟨1, 1 / 16⟩ rfl rfl rfl

theorem intersectsWithRaycast_plain (next : ℚ → ℚ) (fuel : Nat) {s : State}
    {point a b : Ptr} {P A B : Point}
    (hP : deref s point = .ok P) (hA : deref s a = .ok A) (hB : deref s b = .ok B)
    (h1 : P.lng ≠ A.lng) (h2 : P.lng ≠ B.lng) :
    intersectsWithRaycast next fuel s point a b =
      .ok (raycastBody P (if A.lng > B.lng then B else A) (if A.lng > B.lng then A else B), s) := by
  unfold intersectsWithRaycast
  simp only [hA, hB, ok_bind]
  by_cases hsw : A.lng > B.lng
  · simp only [if_pos hsw]
    rw [perturbLoop_exit next fuel hP hB hA (by rintro (h | h) <;> contradiction)]
    simp only [ok_bind, hP, hA, hB]
    rfl
  · simp only [if_neg hsw]
    rw [perturbLoop_exit next fuel hP hA hB (by rintro (h | h) <;> contradiction)]
    simp only [ok_bind, hP, hA, hB]
    rfl

theorem raycastBody_between (P : Point) (x0 y0 x1 y1 : ℚ) (h0 : x0 < P.lng) (h1 : P.lng < x1)
    (hy : P.lat ≠ y0) :
    raycastBody P ⟨y0, x0⟩ ⟨y1, x1⟩ =
      decide ((P.lat - y0) * (x1 - x0) ≤ (P.lng - x0) * (y1 - y0)) := by
  have hx : 0 < x1 - x0 := by linarith
  have hp : 0 < P.lng - x0 := by linarith
  unfold raycastBody
  rw [if_neg (by push_neg; exact ⟨h0.le, h1.le⟩)]
  by_cases hdir : y0 > y1
  · simp only [hdir, if_true]
    by_cases ha : P.lat > y0
    · rw [if_pos ha]
      symm
      rw [decide_eq_false_iff_not, not_le]
      nlinarith
    · rw [if_neg ha]
      have hlt : P.lat < y0 := lt_of_le_of_ne (not_lt.mp ha) hy
      by_cases hb : P.lat < y1
      · rw [if_pos hb]
        symm
        rw [decide_eq_true_iff]
        nlinarith
      · rw [if_neg hb]
        have hd1 : P.lat - y0 ≠ 0 := sub_ne_zero.mpr hy
        have hd2 : y1 - y0 ≠ 0 := by
          intro h; linarith
        simp only [slopeTest, fdiv, if_neg hd1, if_neg hd2, fge]
        congr 1
        rw [eq_iff_iff]
        have e1 : (x1 - x0) / (y1 - y0) = (x0 - x1) / (y0 - y1) := by
          rw [← neg_sub x1 x0, ← neg_sub y1 y0, neg_div_neg_eq]
        have e2 : (P.lng - x0) / (P.lat - y0) = (x0 - P.lng) / (y0 - P.lat) := by
          rw [← neg_sub P.lng x0, ← neg_sub P.lat y0, neg_div_neg_eq]
        rw [e1, e2, div_le_div_iff (by linarith) (by linarith)]
        constructor <;> intro h <;> nlinarith
  · simp only [hdir, if_false]
    have hle : y0 ≤ y1 := not_lt.mp hdir
    by_cases ha : P.lat > y1
    · rw [if_pos ha]
      symm
      rw [decide_eq_false_iff_not, not_le]
      nlinarith
    · rw [if_neg ha]
      by_cases hb : P.lat < y0
      · rw [if_pos hb]
        symm
        rw [decide_eq_true_iff]
        nlinarith
      · rw [if_neg hb]
        have hgt : y0 < P.lat := lt_of_le_of_ne (not_lt.mp hb) (Ne.symm hy)
        have hd1 : P.lat - y0 ≠ 0 := sub_ne_zero.mpr hy
        have hd2 : y1 - y0 ≠ 0 := by
          intro h; linarith [not_lt.mp ha]
        simp only [slopeTest, fdiv, if_neg hd1, if_neg hd2, fge]
        congr 1
        rw [eq_iff_iff, div_le_div_iff (by linarith [not_lt.mp ha]) (by linarith)]
        constructor <;> intro h <;> nlinarith

/-- C10: for an edge with endpoints `(x0,y0)`, `(x1,y1)` (`x` = lng, `y` = lat), given in
either order, and a point `P` with `x0 < P.lng < x1` and `P.lat ≠ y0`, the edge test
returns (for any fuel, without allocating) whether `P` lies on or below the edge's line:
`(P.lat - y0) * (x1 - x0) ≤ (P.lng - x0) * (y1 - y0)`. -/
theorem C10_raycast_meets_edge (next : ℚ → ℚ) (fuel : Nat) (s : State) (point a b : Ptr)
    (P : Point) (x0 y0 x1 y1 : ℚ) (hP : deref s point = .ok P)
    (hedge : (deref s a = .ok ⟨y0, x0⟩ ∧ deref s b = .ok ⟨y1, x1⟩) ∨
      (deref s a = .ok ⟨y1, x1⟩ ∧ deref s b = .ok ⟨y0, x0⟩))
    (h0 : x0 < P.lng) (h1 : P.lng < x1) (hy : P.lat ≠ y0) :
    intersectsWithRaycast next fuel s point a b =
      .ok (decide ((P.lat - y0) * (x1 - x0) ≤ (P.lng - x0) * (y1 - y0)), s) := by
  have hx : x0 < x1 := h0.trans h1
  rcases hedge with ⟨hA, hB⟩ | ⟨hA, hB⟩
  · rw [intersectsWithRaycast_plain next fuel hP hA hB (ne_of_gt h0) (ne_of_lt h1)]
    simp only [gt_iff_lt, if_neg (not_lt.mpr hx.le)]
    rw [raycastBody_between P x0 y0 x1 y1 h0 h1 hy]
  · rw [intersectsWithRaycast_plain next fuel hP hA hB (ne_of_lt h1) (ne_of_gt h0)]
    simp only [gt_iff_lt, if_pos hx]
    rw [raycastBody_between P x0 y0 x1 y1 h0 h1 hy]

/-- Witness of C10: the edge `(lat 0,lng 0)`-`(lat 4,lng 2)` and the point `(lat 1,lng 1)`,
which lies below the edge's line. -/
theorem C10_raycast_meets_edge_witness :
    intersectsWithRaycast stepNext 0 slantedEdge 2 1 0 =
      .ok (decide (((1 : ℚ) - 0) * (2 - 0) ≤ (1 - 0) * (4 - 0)), slantedEdge) :=
  C10_raycast_meets_edge stepNext 0 slantedEdge 2 1 0 ⟨1, 1⟩ 0 0 2 4 rfl
    (Or.inr ⟨rfl, rfl⟩) (by norm_num) (by norm_num) (by norm_num)

/-- C4, at the triangle `[(0,0),(0,4),(4,2)]` and the interior point `(1,1)`: `Contains`
returns false, the two edges it tests do not cross, and the closing edge from the last
point to the first, which it never tests, does cross. -/
theorem C4_closing_edge_not_tested :
    Contains stepNext 2 triangle 3 = .ok (false, triangle) ∧
    intersectsWithRaycast stepNext 2 triangle 3 0 1 = .ok (false, triangle) ∧
    intersectsWithRaycast stepNext 2 triangle 3 1 2 = .ok (false, triangle) ∧
    intersectsWithRaycast stepNext 2 triangle 3 2 0 = .ok (true, triangle) := by
  refine ⟨rfl, rfl, rfl, ?_⟩
  rw [@intersectsWithRaycast_plain stepNext 2 triangle 3 2 0 ⟨1, 1⟩ ⟨4, 2⟩ ⟨0, 0⟩
    rfl rfl rfl (by norm_num) (by norm_num)]
  norm_num [raycastBody, slopeTest, fdiv, fge]

theorem nextSubnormal_lt (x : ℚ) : x < nextSubnormal x := by
  unfold nextSubnormal
  have h : (0 : ℚ) < 1 / 2 ^ 1074 := by positivity
  linarith

/-- C3 fails as stated: in `thinRing` the query point `(lat -1,lng 0)` has a `lat`
below the `lat` of every point of the polygon, and `Contains` returns true. The edge
`A-B` perturbs the point twice, past `B`, and is not crossed; the edge `B-C` is not
crossed; the edge `C-A` perturbs the point once, to `2^-1074`, and is crossed. The
successor used is the float64 one at both values it is applied to, `0` and `2^-1074`. -/
theorem C3_counterexample :
    deref thinRing 3 = .ok ⟨-1, 0⟩ ∧
    (∀ q ∈ thinRing.poly.points, ∃ v, deref thinRing q = .ok v ∧ (-1 : ℚ) < v.lat) ∧
    ∃ u, Contains nextSubnormal 2 thinRing 3 = .ok (true, u) := by
  refine ⟨rfl, ?_, ?_⟩
  swap
  · obtain ⟨u, hu, _⟩ := Contains_single nextSubnormal nextSubnormal_lt 2 (le_refl 2)
      thinRing 3 ⟨-1, 0⟩ rfl (valid_of_lt (by decide)) (by decide) (by decide)
    refine ⟨u, ?_⟩
    rw [hu]
    norm_num [thinRing, parityFrom, edgeVal, valOf, raycastVal, perturbVal, raycastBody,
      nextSubnormal]
  intro q hq
  simp only [thinRing, List.mem_cons, List.mem_singleton, List.not_mem_nil, or_false] at hq
  rcases hq with rfl | rfl | rfl | rfl
  · exact ⟨⟨0, 0⟩, rfl, by norm_num⟩
  · exact ⟨⟨1, 1 / 2 ^ 1074⟩, rfl, by norm_num⟩
  · exact ⟨⟨0, 3⟩, rfl, by norm_num⟩
  · exact ⟨⟨0, 0⟩, rfl, by norm_num⟩

theorem parityFrom_false (f : Ptr → Ptr → Bool) :
    ∀ pts : List Ptr, (∀ a ∈ pts, ∀ b ∈ pts, f a b = false) → parityFrom f pts = false
  | [], _ => rfl
  | [_], _ => rfl
  | a :: b :: rest, h => by
    rw [parityFrom, h a (by simp) b (by simp),
      parityFrom_false f (b :: rest) (fun x hx y hy =>
        h x (List.mem_cons_of_mem _ hx) y (List.mem_cons_of_mem _ hy))]
    rfl

theorem parityMultiFrom_false (f : Ptr → Ptr → Bool) (p0 : Ptr) :
    ∀ (pts : List Ptr) (i : Nat), (∀ a ∈ pts, ∀ b ∈ pts, f a b = false) →
      parityMultiFrom f p0 i pts = false
  | [], _, _ => rfl
  | [_], _, _ => rfl
  | a :: b :: rest, i, h => by
    rw [parityMultiFrom, h a (by simp) b (by simp),
      parityMultiFrom_false f p0 (b :: rest) (i + 1) (fun x hx y hy =>
        h x (List.mem_cons_of_mem _ hx) y (List.mem_cons_of_mem _ hy))]
    simp

theorem Contains_all_false (next : ℚ → ℚ) (hnext : ∀ x, x < next x) (fuel : Nat)
    (hf : 2 ≤ fuel) (s : State) (point : Ptr) (P : Point) (hP : deref s point = .ok P)
    (hv : ∀ q ∈ s.poly.points, ∃ v, deref s q = .ok v)
    (hall : ∀ a ∈ s.poly.points, ∀ b ∈ s.poly.points, edgeVal next s P a b = false) :
    ∃ u, Contains next fuel s point = .ok (false, u) := by
  by_cases hlen : 3 ≤ s.poly.points.length
  · by_cases hid : s.poly.points[s.poly.points.length - 1]? = s.poly.points[0]?
    · obtain ⟨u, hu, _⟩ := Contains_single next hnext fuel hf s point P hP hv hlen hid
      rw [parityFrom_false _ _ hall] at hu
      exact ⟨u, hu⟩
    · obtain ⟨u, hu, _⟩ := Contains_multi next hnext fuel hf s point P hP hv hlen hid
      rw [parityMultiFrom_false _ _ _ _ hall] at hu
      exact ⟨u, hu⟩
  · refine ⟨s, ?_⟩
    have hc : IsClosed s = false := by
      unfold IsClosed
      rw [if_pos (by omega)]
    unfold Contains ContainsWith
    simp [hc]

theorem raycastVal_left (next : ℚ → ℚ) (P A B : Point) (hA : P.lng < A.lng)
    (hB : P.lng < B.lng) : raycastVal next P A B = false := by
  unfold raycastVal
  by_cases hsw : A.lng > B.lng
  · simp only [if_pos hsw]
    rw [perturbVal_of_ne next (ne_of_lt hB) (ne_of_lt hA)]
    unfold raycastBody
    rw [if_pos (Or.inl hB)]
  · simp only [if_neg hsw]
    rw [perturbVal_of_ne next (ne_of_lt hA) (ne_of_lt hB)]
    unfold raycastBody
    rw [if_pos (Or.inl hA)]

theorem raycastVal_right (next : ℚ → ℚ) (P A B : Point) (hA : A.lng < P.lng)
    (hB : B.lng < P.lng) : raycastVal next P A B = false := by
  unfold raycastVal
  by_cases hsw : A.lng > B.lng
  · simp only [if_pos hsw]
    rw [perturbVal_of_ne next (ne_of_gt hB) (ne_of_gt hA)]
    unfold raycastBody
    rw [if_pos (Or.inr hA)]
  · simp only [if_neg hsw]
    rw [perturbVal_of_ne next (ne_of_gt hA) (ne_of_gt hB)]
    unfold raycastBody
    rw [if_pos (Or.inr hB)]

theorem raycastBody_above (pv sv ev : Point) (hS : sv.lat < pv.lat) (hE : ev.lat < pv.lat) :
    raycastBody pv sv ev = false := by
  unfold raycastBody
  split_ifs <;> rfl

theorem raycastVal_above (next : ℚ → ℚ) (P A B : Point) (hA : A.lat < P.lat)
    (hB : B.lat < P.lat) : raycastVal next P A B = false := by
  unfold raycastVal
  by_cases hsw : A.lng > B.lng
  · simp only [if_pos hsw]
    exact raycastBody_above _ _ _ hB hA
  · simp only [if_neg hsw]
    exact raycastBody_above _ _ _ hA hB

theorem raycastBody_below (pv sv ev : Point) (hS : pv.lat < sv.lat) (hE : pv.lat < ev.lat) :
    raycastBody pv sv ev = !decide (pv.lng < sv.lng ∨ pv.lng > ev.lng) := by
  unfold raycastBody
  by_cases hout : pv.lng < sv.lng ∨ pv.lng > ev.lng
  · rw [if_pos hout, decide_eq_true hout]
    rfl
  · rw [if_neg hout, decide_eq_false hout]
    by_cases hdir : sv.lat > ev.lat
    · rw [if_pos hdir, if_neg (by intro h; exact absurd (lt_trans hS h) (lt_irrefl _)),
        if_pos hE]
      rfl
    · rw [if_neg hdir, if_neg (by intro h; exact absurd (lt_trans hE h) (lt_irrefl _)),
        if_pos hS]
      rfl

theorem span_perturbed_iff (next : ℚ → ℚ) (hnext : ∀ x, x < next x) (x sl el : ℚ)
    (hgs : sl ≤ x ∨ next x < sl) (hge : el ≤ x ∨ next x < el) :
    ¬ (perturbVal next x sl el < sl ∨ perturbVal next x sl el > el) ↔
      (sl ≤ x ∧ ¬ el ≤ x) := by
  have h1 := hnext x
  have h2 := hnext (next x)
  unfold perturbVal
  split_ifs with hc hc2
  · exfalso
    rcases hc2 with e | e
    · rcases hgs with g | g <;> linarith
    · rcases hge with g | g <;> linarith
  · constructor
    · intro h
      push_neg at h
      rcases hc with e | e
      · refine ⟨e ▸ le_refl _, ?_⟩
        intro hle
        linarith
      · exfalso
        linarith [h.2]
    · rintro ⟨ha, hb⟩
      push_neg at hb ⊢
      rcases hge with g | g
      · linarith
      · exact ⟨by linarith, by linarith⟩
  · constructor
    · intro h
      push_neg at h
      refine ⟨h.1, ?_⟩
      intro hle
      exact hc (Or.inr (le_antisymm h.2 hle))
    · rintro ⟨ha, hb⟩
      push_neg at hb ⊢
      exact ⟨ha, hb.le⟩

theorem raycastVal_below (next : ℚ → ℚ) (hnext : ∀ x, x < next x) (P A B : Point)
    (hA : P.lat < A.lat) (hB : P.lat < B.lat)
    (hgA : A.lng ≤ P.lng ∨ next P.lng < A.lng) (hgB : B.lng ≤ P.lng ∨ next P.lng < B.lng) :
    raycastVal next P A B = xor (decide (A.lng ≤ P.lng)) (decide (B.lng ≤ P.lng)) := by
  unfold raycastVal
  by_cases hsw : A.lng > B.lng
  · simp only [if_pos hsw]
    have hb0 : raycastBody ⟨P.lat, perturbVal next P.lng B.lng A.lng⟩ B A =
        !decide (perturbVal next P.lng B.lng A.lng < B.lng ∨
          perturbVal next P.lng B.lng A.lng > A.lng) := raycastBody_below _ _ _ hB hA
    rw [hb0]
    have hiff := span_perturbed_iff next hnext P.lng B.lng A.lng hgB hgA
    by_cases ha : A.lng ≤ P.lng <;> by_cases hb : B.lng ≤ P.lng <;>
      simp only [ha, hb, true_and, and_true, not_true, not_false_iff, false_and, and_false,
        iff_true, iff_false, not_not] at hiff <;>
      simp [ha, hb, hiff]
    · exact absurd (hsw.le.trans ha) hb
  · simp only [if_neg hsw]
    have hb0 : raycastBody ⟨P.lat, perturbVal next P.lng A.lng B.lng⟩ A B =
        !decide (perturbVal next P.lng A.lng B.lng < A.lng ∨
          perturbVal next P.lng A.lng B.lng > B.lng) := raycastBody_below _ _ _ hA hB
    rw [hb0]
    have hiff := span_perturbed_iff next hnext P.lng A.lng B.lng hgA hgB
    by_cases ha : A.lng ≤ P.lng <;> by_cases hb : B.lng ≤ P.lng <;>
      simp only [ha, hb, true_and, and_true, not_true, not_false_iff, false_and, and_false,
        iff_true, iff_false, not_not] at hiff <;>
      simp [ha, hb, hiff]
    · exact absurd ((not_lt.mp hsw).trans hb) ha

theorem parityFrom_telescope (f : Ptr → Ptr → Bool) (g : Ptr → Bool) :
    ∀ (pts : List Ptr) (a z : Ptr), (a :: pts).getLast? = some z →
      (∀ x ∈ a :: pts, ∀ y ∈ a :: pts, f x y = xor (g x) (g y)) →
      parityFrom f (a :: pts) = xor (g a) (g z)
  | [], a, z, hz, _ => by
    simp only [List.getLast?_singleton, Option.some.injEq] at hz
    subst hz
    simp [parityFrom]
  | b :: rest, a, z, hz, h => by
    have hz2 : (b :: rest).getLast? = some z := by
      rw [List.getLast?_cons_cons] at hz
      exact hz
    rw [parityFrom, h a (by simp) b (by simp),
      parityFrom_telescope f g rest b z hz2 (fun x hx y hy =>
        h x (List.mem_cons_of_mem _ hx) y (List.mem_cons_of_mem _ hy))]
    cases g a <;> cases g b <;> cases g z <;> rfl

theorem parityFrom_closed (f : Ptr → Ptr → Bool) (g : Ptr → Bool) (pts : List Ptr)
    (hid : pts[pts.length - 1]? = pts[0]?)
    (h : ∀ x ∈ pts, ∀ y ∈ pts, f x y = xor (g x) (g y)) : parityFrom f pts = false := by
  cases pts with
  | nil => rfl
  | cons a rest =>
    have hz : (a :: rest).getLast? = some a := by
      rw [List.getLast?_eq_getElem?, hid]
      simp
    rw [parityFrom_telescope f g rest a a hz h]
    cases g a <;> rfl

/-- C3, amended: `Contains(P)` is false for every polygon when `P.lng` is below the `lng`
of every point, or above the `lng` of every point, or `P.lat` is above the `lat` of every
point; when `P.lat` is below the `lat` of every point it is false for a single contour
closed with its first point object, provided no point of the polygon has its `lng` in
the interval `(P.lng, next P.lng]`. -/
theorem C3_outside_bounding_box (next : ℚ → ℚ) (hnext : ∀ x, x < next x) (fuel : Nat)
    (hf : 2 ≤ fuel) (s : State) (point : Ptr) (P : Point) (hP : deref s point = .ok P)
    (hv : ∀ q ∈ s.poly.points, ∃ v, deref s q = .ok v) :
    ((∀ q ∈ s.poly.points, ∀ v, deref s q = .ok v → P.lng < v.lng) →
        ∃ u, Contains next fuel s point = .ok (false, u)) ∧
    ((∀ q ∈ s.poly.points, ∀ v, deref s q = .ok v → v.lng < P.lng) →
        ∃ u, Contains next fuel s point = .ok (false, u)) ∧
    ((∀ q ∈ s.poly.points, ∀ v, deref s q = .ok v → v.lat < P.lat) →
        ∃ u, Contains next fuel s point = .ok (false, u)) ∧
    ((∀ q ∈ s.poly.points, ∀ v, deref s q = .ok v → P.lat < v.lat) →
      s.poly.points[s.poly.points.length - 1]? = s.poly.points[0]? →
      (∀ q ∈ s.poly.points, ∀ v, deref s q = .ok v → v.lng ≤ P.lng ∨ next P.lng < v.lng) →
        ∃ u, Contains next fuel s point = .ok (false, u)) := by
  have hd := deref_valOf_of_valid hv
  refine ⟨?_, ?_, ?_, ?_⟩
  · intro h
    exact Contains_all_false next hnext fuel hf s point P hP hv (fun a ha b hb =>
      raycastVal_left next P _ _ (h a ha _ (hd a ha)) (h b hb _ (hd b hb)))
  · intro h
    exact Contains_all_false next hnext fuel hf s point P hP hv (fun a ha b hb =>
      raycastVal_right next P _ _ (h a ha _ (hd a ha)) (h b hb _ (hd b hb)))
  · intro h
    exact Contains_all_false next hnext fuel hf s point P hP hv (fun a ha b hb =>
      raycastVal_above next P _ _ (h a ha _ (hd a ha)) (h b hb _ (hd b hb)))
  · intro h hid hgap
    have hedge : ∀ x ∈ s.poly.points, ∀ y ∈ s.poly.points, edgeVal next s P x y =
        xor (decide ((valOf s x).lng ≤ P.lng)) (decide ((valOf s y).lng ≤ P.lng)) :=
      fun a ha b hb => raycastVal_below next hnext P _ _ (h a ha _ (hd a ha))
        (h b hb _ (hd b hb)) (hgap a ha _ (hd a ha)) (hgap b hb _ (hd b hb))
    by_cases hlen : 3 ≤ s.poly.points.length
    · obtain ⟨u, hu, _⟩ := Contains_single next hnext fuel hf s point P hP hv hlen hid
      rw [parityFrom_closed _ (fun q => decide ((valOf s q).lng ≤ P.lng)) _ hid hedge] at hu
      exact ⟨u, hu⟩
    · refine ⟨s, ?_⟩
      have hc : IsClosed s = false := by
        unfold IsClosed
        rw [if_pos (by omega)]
      unfold Contains ContainsWith
      simp [hc]

/-- Witness of C3 (amended): the square `[(0,0),(0,4),(4,4),(4,0)]` closed with its first
point object, with the query point `(5,5)`, whose `lat` is above every point's, and with
the query point `(lat -1,lng 0)`, whose `lat` is below every point's; the successor is
the float64 one at the value it is applied to. -/
theorem C3_outside_bounding_box_witness :
    (∀ q ∈ square4.poly.points, ∀ v, deref square4 q = .ok v → v.lat < (5 : ℚ)) ∧
    (∃ u, Contains nextSubnormal 2 square4 5 = .ok (false, u)) ∧
    (∀ q ∈ square4.poly.points, ∀ v, deref square4 q = .ok v → (-1 : ℚ) < v.lat) ∧
    (∀ q ∈ square4.poly.points, ∀ v, deref square4 q = .ok v →
      v.lng ≤ (0 : ℚ) ∨ nextSubnormal 0 < v.lng) ∧
    (∃ u, Contains nextSubnormal 2 square4 7 = .ok (false, u)) := by
  have hall : ∀ q ∈ square4.poly.points, ∀ v, deref square4 q = .ok v → v.lat < (5 : ℚ) := by
    intro q hq v hv
    simp only [square4, List.mem_cons, List.mem_singleton, List.not_mem_nil, or_false] at hq
    rcases hq with rfl | rfl | rfl | rfl | rfl <;> cases hv <;> norm_num [square4]
  have hlow : ∀ q ∈ square4.poly.points, ∀ v, deref square4 q = .ok v → (-1 : ℚ) < v.lat := by
    intro q hq v hv
    simp only [square4, List.mem_cons, List.mem_singleton, List.not_mem_nil, or_false] at hq
    rcases hq with rfl | rfl | rfl | rfl | rfl <;> cases hv <;> norm_num [square4]
  have hgap : ∀ q ∈ square4.poly.points, ∀ v, deref square4 q = .ok v →
      v.lng ≤ (0 : ℚ) ∨ nextSubnormal 0 < v.lng := by
    intro q hq v hv
    simp only [square4, List.mem_cons, List.mem_singleton, List.not_mem_nil, or_false] at hq
    rcases hq with rfl | rfl | rfl | rfl | rfl <;> cases hv <;> norm_num [square4, nextSubnormal]
  exact ⟨hall, (C3_outside_bounding_box nextSubnormal nextSubnormal_lt 2 (le_refl 2) square4 5 ⟨5, 5⟩
    rfl (valid_of_lt (by decide))).2.2.1 hall, hlow, hgap,
    (C3_outside_bounding_box nextSubnormal nextSubnormal_lt 2 (le_refl 2) square4 7 ⟨-1, 0⟩
    rfl (valid_of_lt (by decide))).2.2.2 hlow (by decide) hgap⟩

theorem rect_parity_then (next : ℚ → ℚ) (hnext : ∀ x, x < next x) (P : Point)
    (a b c d : ℚ) (hab : a < b) (hcd : c < d) (r : Bool) :
    xor (raycastVal next P ⟨a, c⟩ ⟨a, d⟩) (xor (raycastVal next P ⟨a, d⟩ ⟨b, d⟩)
      (xor (raycastVal next P ⟨b, d⟩ ⟨b, c⟩) (xor (raycastVal next P ⟨b, c⟩ ⟨a, c⟩) r))) =
    xor (decide (c < perturbVal next P.lng c d ∧ perturbVal next P.lng c d < d ∧
      a < P.lat ∧ P.lat ≤ b)) r := by
  rw [← rect_parity next hnext P a b c d hab hcd]
  generalize raycastVal next P ⟨a, c⟩ ⟨a, d⟩ = e1
  generalize raycastVal next P ⟨a, d⟩ ⟨b, d⟩ = e2
  generalize raycastVal next P ⟨b, d⟩ ⟨b, c⟩ = e3
  generalize raycastVal next P ⟨b, c⟩ ⟨a, c⟩ = e4
  cases e1 <;> cases e2 <;> cases e3 <;> cases e4 <;> cases r <;> rfl

theorem ptr_ne_of_deref {s : State} {p q : Ptr} {v w : Point} (hp : deref s p = .ok v)
    (hq : deref s q = .ok w) (hne : v ≠ w) : p ≠ q := by
  rintro rfl
  rw [hp] at hq
  exact hne (Except.ok.inj hq)

theorem rect_hole_parity (next : ℚ → ℚ) (hnext : ∀ x, x < next x) (fuel : Nat) (hf : 2 ≤ fuel)
    (s : State) (pA pB pC pD pE pF pG pH point : Ptr) (a b c d a2 b2 c2 d2 : ℚ) (P : Point)
    (ha : a < a2) (hab : a2 < b2) (hb : b2 < b) (hc : c < c2) (hcd : c2 < d2) (hd : d2 < d)
    (hA : deref s pA = .ok ⟨a, c⟩) (hB : deref s pB = .ok ⟨a, d⟩)
    (hC : deref s pC = .ok ⟨b, d⟩) (hD : deref s pD = .ok ⟨b, c⟩)
    (hE : deref s pE = .ok ⟨a2, c2⟩) (hF : deref s pF = .ok ⟨a2, d2⟩)
    (hG : deref s pG = .ok ⟨b2, d2⟩) (hH : deref s pH = .ok ⟨b2, c2⟩)
    (hP : deref s point = .ok P)
    (hpts : s.poly.points = [pA, pB, pC, pD, pA, pE, pF, pG, pH, pE]) :
    ∃ u, Contains next fuel s point =
      .ok (xor (decide (c < perturbVal next P.lng c d ∧ perturbVal next P.lng c d < d ∧
          a < P.lat ∧ P.lat ≤ b))
        (decide (c2 < perturbVal next P.lng c2 d2 ∧ perturbVal next P.lng c2 d2 < d2 ∧
          a2 < P.lat ∧ P.lat ≤ b2)), u) := by
  have hv : ∀ q ∈ s.poly.points, ∃ v, deref s q = .ok v := by
    rw [hpts]
    intro q hq
    simp only [List.mem_cons, List.mem_singleton, List.not_mem_nil, or_false] at hq
    rcases hq with rfl | rfl | rfl | rfl | rfl | rfl | rfl | rfl | rfl | rfl
    exacts [⟨_, hA⟩, ⟨_, hB⟩, ⟨_, hC⟩, ⟨_, hD⟩, ⟨_, hA⟩, ⟨_, hE⟩, ⟨_, hF⟩, ⟨_, hG⟩,
      ⟨_, hH⟩, ⟨_, hE⟩]
  have nB : pA ≠ pB := ptr_ne_of_deref hA hB (by
    intro h; injection h with _ h2; linarith)
  have nC : pA ≠ pC := ptr_ne_of_deref hA hC (by
    intro h; injection h with h1 _; linarith)
  have nD : pA ≠ pD := ptr_ne_of_deref hA hD (by
    intro h; injection h with h1 _; linarith)
  have nE : pA ≠ pE := ptr_ne_of_deref hA hE (by
    intro h; injection h with h1 _; linarith)
  have nF : pA ≠ pF := ptr_ne_of_deref hA hF (by
    intro h; injection h with h1 _; linarith)
  have nG : pA ≠ pG := ptr_ne_of_deref hA hG (by
    intro h; injection h with h1 _; linarith)
  have nH : pA ≠ pH := ptr_ne_of_deref hA hH (by
    intro h; injection h with h1 _; linarith)
  obtain ⟨u, hu, _⟩ := Contains_multi next hnext fuel hf s point P hP hv
    (by rw [hpts]; simp) (by
      rw [hpts]
      simp only [List.length_cons, List.length_nil]
      intro h
      exact nE (Option.some.inj h).symm)
  refine ⟨u, ?_⟩
  rw [hu]
  congr 2
  simp only [hpts, List.getElem_cons_zero]
  simp only [parityMultiFrom, edgeVal, deref_valOf hA, deref_valOf hB, deref_valOf hC,
    deref_valOf hD, deref_valOf hE, deref_valOf hF, deref_valOf hG, deref_valOf hH,
    nB, nC, nD, nE, nF, nG, nH, and_false, and_true, ne_eq, not_true_eq_false, if_false,
    false_and, OfNat.ofNat_ne_one, not_false_eq_true, if_true, Nat.reduceAdd,
    Nat.reduceEqDiff]
  rw [rect_parity_then next hnext P a b c d (by linarith) (by linarith),
    Bool.false_xor, rect_parity next hnext P a2 b2 c2 d2 hab hcd]

/-- C2: for an outer rectangle ring `[A,B,C,D,A]` followed by a rectangle ring
`[E,F,G,H,E]` strictly inside it (each ring closed with its own first point object),
`Contains(P)` is false when `P` is strictly inside the hole, and true when `P` is strictly
inside the outer rectangle and strictly outside the closed hole. -/
theorem C2_rectangle_with_hole (next : ℚ → ℚ) (hnext : ∀ x, x < next x) (fuel : Nat)
    (hf : 2 ≤ fuel) (s : State) (pA pB pC pD pE pF pG pH point : Ptr)
    (a b c d a2 b2 c2 d2 : ℚ) (P : Point)
    (ha : a < a2) (hab : a2 < b2) (hb : b2 < b) (hc : c < c2) (hcd : c2 < d2) (hd : d2 < d)
    (hA : deref s pA = .ok ⟨a, c⟩) (hB : deref s pB = .ok ⟨a, d⟩)
    (hC : deref s pC = .ok ⟨b, d⟩) (hD : deref s pD = .ok ⟨b, c⟩)
    (hE : deref s pE = .ok ⟨a2, c2⟩) (hF : deref s pF = .ok ⟨a2, d2⟩)
    (hG : deref s pG = .ok ⟨b2, d2⟩) (hH : deref s pH = .ok ⟨b2, c2⟩)
    (hP : deref s point = .ok P)
    (hpts : s.poly.points = [pA, pB, pC, pD, pA, pE, pF, pG, pH, pE]) :
    ((a2 < P.lat ∧ P.lat < b2 ∧ c2 < P.lng ∧ P.lng < d2) →
        ∃ u, Contains next fuel s point = .ok (false, u)) ∧
    ((a < P.lat ∧ P.lat < b ∧ c < P.lng ∧ P.lng < d) →
      (P.lat < a2 ∨ P.lat > b2 ∨ P.lng < c2 ∨ P.lng > d2) →
        ∃ u, Contains next fuel s point = .ok (true, u)) := by
  obtain ⟨u, hu⟩ := rect_hole_parity next hnext fuel hf s pA pB pC pD pE pF pG pH point
    a b c d a2 b2 c2 d2 P ha hab hb hc hcd hd hA hB hC hD hE hF hG hH hP hpts
  constructor
  · rintro ⟨h1, h2, h3, h4⟩
    refine ⟨u, ?_⟩
    rw [hu, perturbVal_of_ne next (ne_of_gt (hc.trans h3)) (ne_of_lt (h4.trans hd)),
      perturbVal_of_ne next (ne_of_gt h3) (ne_of_lt h4)]
    have o1 : c < P.lng ∧ P.lng < d ∧ a < P.lat ∧ P.lat ≤ b :=
      ⟨hc.trans h3, h4.trans hd, ha.trans h1, (h2.trans hb).le⟩
    have o2 : c2 < P.lng ∧ P.lng < d2 ∧ a2 < P.lat ∧ P.lat ≤ b2 := ⟨h3, h4, h1, h2.le⟩
    rw [decide_eq_true o1, decide_eq_true o2]
    rfl
  · rintro ⟨h1, h2, h3, h4⟩ hout
    refine ⟨u, ?_⟩
    rw [hu, perturbVal_of_ne next (ne_of_gt h3) (ne_of_lt h4)]
    have o1 : c < P.lng ∧ P.lng < d ∧ a < P.lat ∧ P.lat ≤ b := ⟨h3, h4, h1, h2.le⟩
    have o2 : ¬ (c2 < perturbVal next P.lng c2 d2 ∧ perturbVal next P.lng c2 d2 < d2 ∧
        a2 < P.lat ∧ P.lat ≤ b2) := by
      rintro ⟨g1, g2, g3, g4⟩
      rcases hout with h | h | h | h
      · linarith
      · linarith
      · rw [perturbVal_of_ne next (ne_of_lt h) (ne_of_lt (h.trans hcd))] at g1
        linarith
      · rw [perturbVal_of_ne next (ne_of_gt (hcd.trans h)) (ne_of_gt h)] at g2
        linarith
    rw [decide_eq_true o1, decide_eq_false o2]
    rfl

/-- Witness of C2: the square `[0,10] x [0,10]` with the hole `[3,6] x [3,6]`; `(4,4)` is
in the hole and `(1,1)` is in the outer square off the hole. -/
theorem C2_rectangle_with_hole_witness :
    (∃ u, Contains stepNext 2 squareWithHole 8 = .ok (false, u)) ∧
    (∃ u, Contains stepNext 2 squareWithHole 9 = .ok (true, u)) :=
  ⟨(C2_rectangle_with_hole stepNext stepNext_lt 2 (le_refl 2) squareWithHole 0 1 2 3 4 5 6 7 8
      0 10 0 10 3 6 3 6 ⟨4, 4⟩ (by norm_num) (by norm_num) (by norm_num) (by norm_num)
      (by norm_num) (by norm_num) rfl rfl rfl rfl rfl rfl rfl rfl rfl rfl).1
      ⟨by norm_num, by norm_num, by norm_num, by norm_num⟩,
   (C2_rectangle_with_hole stepNext stepNext_lt 2 (le_refl 2) squareWithHole 0 1 2 3 4 5 6 7 9
      0 10 0 10 3 6 3 6 ⟨1, 1⟩ (by norm_num) (by norm_num) (by norm_num) (by norm_num)
      (by norm_num) (by norm_num) rfl rfl rfl rfl rfl rfl rfl rfl rfl rfl).2
      ⟨by norm_num, by norm_num, by norm_num, by norm_num⟩ (Or.inl (by norm_num))⟩

theorem parityFrom_congr (f g : Ptr → Ptr → Bool) :
    ∀ pts : List Ptr, (∀ a ∈ pts, ∀ b ∈ pts, f a b = g a b) → parityFrom f pts = parityFrom g pts
  | [], _ => rfl
  | [_], _ => rfl
  | a :: b :: rest, h => by
    rw [parityFrom, parityFrom, h a (by simp) b (by simp),
      parityFrom_congr f g (b :: rest) (fun x hx y hy =>
        h x (List.mem_cons_of_mem _ hx) y (List.mem_cons_of_mem _ hy))]

theorem parityMultiFrom_congr (f g : Ptr → Ptr → Bool) (p0 : Ptr) :
    ∀ (pts : List Ptr) (i : Nat), (∀ a ∈ pts, ∀ b ∈ pts, f a b = g a b) →
      parityMultiFrom f p0 i pts = parityMultiFrom g p0 i pts
  | [], _, _ => rfl
  | [_], _, _ => rfl
  | a :: b :: rest, i, h => by
    rw [parityMultiFrom, parityMultiFrom, h a (by simp) b (by simp),
      parityMultiFrom_congr f g p0 (b :: rest) (i + 1) (fun x hx y hy =>
        h x (List.mem_cons_of_mem _ hx) y (List.mem_cons_of_mem _ hy))]

theorem headD_eq_getElem : ∀ (xs : List Ptr) (h : 0 < xs.length), xs.headD 0 = xs[0]
  | [], h => absurd h (by simp)
  | _ :: _, _ => rfl

theorem Contains_val (next : ℚ → ℚ) (hnext : ∀ x, x < next x) (fuel : Nat) (hf : 2 ≤ fuel)
    (s : State) (point : Ptr) (P : Point) (hP : deref s point = .ok P)
    (hv : ∀ q ∈ s.poly.points, ∃ v, deref s q = .ok v) :
    ∃ u, Contains next fuel s point = .ok (containsVal next s P, u) ∧ Extends s u := by
  unfold containsVal
  by_cases hlen : s.poly.points.length < 3
  · rw [if_pos hlen]
    refine ⟨s, ?_, Extends.refl s⟩
    have hc : IsClosed s = false := by
      unfold IsClosed
      rw [if_pos hlen]
    unfold Contains ContainsWith
    simp [hc]
  · rw [if_neg hlen]
    have h3 : 3 ≤ s.poly.points.length := by omega
    by_cases hid : s.poly.points[s.poly.points.length - 1]? = s.poly.points[0]?
    · rw [if_pos hid]
      exact Contains_single next hnext fuel hf s point P hP hv h3 hid
    · rw [if_neg hid]
      rw [headD_eq_getElem s.poly.points (by omega)]
      exact Contains_multi next hnext fuel hf s point P hP hv h3 hid

theorem containsVal_extends (next : ℚ → ℚ) {s u : State} (hx : Extends s u) (P : Point)
    (hv : ∀ q ∈ s.poly.points, ∃ v, deref s q = .ok v) :
    containsVal next u P = containsVal next s P := by
  have hedge : ∀ a ∈ s.poly.points, ∀ b ∈ s.poly.points,
      edgeVal next u P a b = edgeVal next s P a b := by
    intro a ha b hb
    obtain ⟨va, hva⟩ := hv a ha
    obtain ⟨vb, hvb⟩ := hv b hb
    unfold edgeVal
    rw [deref_valOf hva, deref_valOf hvb, deref_valOf (deref_extends hx hva),
      deref_valOf (deref_extends hx hvb)]
  unfold containsVal
  rw [hx.1, parityFrom_congr _ _ _ hedge, parityMultiFrom_congr _ _ _ _ _ hedge]

/-- C8: `Contains` is read-only and deterministic. With `next` strictly increasing, fuel
for two perturbations and valid pointers, a call returns some `r` in a state `u` in which
the polygon is the same, every `Point` object that existed before is unchanged (the
perturbed points are fresh objects; in particular the query point is unchanged), and a
second call with the same arguments, run in `u`, returns the same `r`. -/
theorem C8_contains_read_only (next : ℚ → ℚ) (hnext : ∀ x, x < next x) (fuel : Nat)
    (hf : 2 ≤ fuel) (s : State) (point : Ptr) (P : Point) (hP : deref s point = .ok P)
    (hv : ∀ q ∈ s.poly.points, ∃ v, deref s q = .ok v) :
    ∃ r u, Contains next fuel s point = .ok (r, u) ∧
      Points u = Points s ∧ u.heap.take s.heap.length = s.heap ∧
      (∀ q v, deref s q = .ok v → deref u q = .ok v) ∧ deref u point = .ok P ∧
      ∃ w, Contains next fuel u point = .ok (r, w) := by
  obtain ⟨u, hu, hx⟩ := Contains_val next hnext fuel hf s point P hP hv
  have hv2 : ∀ q ∈ u.poly.points, ∃ v, deref u q = .ok v := by
    rw [hx.1]
    intro q hq
    obtain ⟨v, hq2⟩ := hv q hq
    exact ⟨v, deref_extends hx hq2⟩
  obtain ⟨w, hw, _⟩ := Contains_val next hnext fuel hf u point P (deref_extends hx hP) hv2
  rw [containsVal_extends next hx P hv] at hw
  refine ⟨_, u, hu, ?_, ?_, fun q v h => deref_extends hx h, deref_extends hx hP, w, hw⟩
  · unfold Points
    rw [hx.1]
  · obtain ⟨_, e, he⟩ := hx
    rw [he, List.take_left]

/-- Witness of C8: the closed square and the query point `(lat -1,lng 0)`, for which the
edge tests do allocate perturbed points. -/
theorem C8_contains_read_only_witness :
    ∃ r u, Contains stepNext 2 square4 7 = .ok (r, u) ∧
      Points u = Points square4 ∧ u.heap.take square4.heap.length = square4.heap ∧
      (∀ q v, deref square4 q = .ok v → deref u q = .ok v) ∧ deref u 7 = .ok ⟨-1, 0⟩ ∧
      ∃ w, Contains stepNext 2 u 7 = .ok (r, w) :=
  C8_contains_read_only stepNext stepNext_lt 2 (le_refl 2) square4 7 ⟨-1, 0⟩ rfl
    (valid_of_lt (by decide))

theorem getD_of_lt (pts : List Ptr) {j : Nat} (h : j < pts.length) : pts.getD j 0 = pts[j] := by
  rw [List.getD_eq_getElem?_getD, List.getElem?_eq_getElem h]
  rfl

theorem decide_odd_succ (n : Nat) : decide (Odd (n + 1)) = !decide (Odd n) := by
  by_cases h : Odd n
  · have h2 : ¬ Odd (n + 1) := by rw [Nat.odd_add_one]; exact not_not.mpr h
    rw [decide_eq_true h, decide_eq_false h2]
    rfl
  · have h2 : Odd (n + 1) := by rw [Nat.odd_add_one]; exact h
    rw [decide_eq_false h, decide_eq_true h2]
    rfl

theorem parityFrom_count (f : Ptr → Ptr → Bool) (pts : List Ptr) :
    ∀ k j : Nat, j + 1 + k = pts.length →
      parityFrom f (pts.drop j) = decide (Odd (((List.range' (j + 1) k).filter
        (fun i => f (pts.getD (i - 1) 0) (pts.getD i 0))).length)) := by
  intro k
  induction k with
  | zero =>
    intro j hj
    rw [parityFrom_drop_end f pts j (by omega)]
    simp
  | succ k ih =>
    intro j hj
    have hlt : j + 1 < pts.length := by omega
    have hj0 : j < pts.length := by omega
    rw [parityFrom_drop f pts j hlt, ih (j + 1) (by omega), List.range'_succ,
      List.filter_cons]
    have hp : f (pts.getD (j + 1 - 1) 0) (pts.getD (j + 1) 0) = f pts[j] pts[j + 1] := by
      rw [Nat.add_sub_cancel, getD_of_lt pts hj0, getD_of_lt pts hlt]
    rw [hp]
    cases f pts[j] pts[j + 1]
    · simp
    · simp only [if_true, List.length_cons, decide_odd_succ]
      exact Bool.true_xor _

theorem parityFrom_eq_crossings (f : Ptr → Ptr → Bool) (pts : List Ptr) :
    parityFrom f pts = decide (Odd (crossings f pts)) := by
  unfold crossings
  cases hp : pts with
  | nil => simp [parityFrom]
  | cons a rest =>
    have h := parityFrom_count f (a :: rest) rest.length 0 (by simp; omega)
    simpa using h

theorem parityMultiFrom_count (f : Ptr → Ptr → Bool) (pts : List Ptr) (h0 : 0 < pts.length) :
    ∀ k j : Nat, j + 1 + k = pts.length →
      parityMultiFrom f pts[0] (j + 1) (pts.drop j) =
        decide (Odd (((List.range' (j + 1) k).filter
          (fun i => f (pts.getD (i - 1) 0) (pts.getD i 0) &&
            !(decide (2 ≤ i) && decide (pts.getD (i - 1) 0 = pts.getD 0 0)))).length)) := by
  intro k
  induction k with
  | zero =>
    intro j hj
    rw [parityMultiFrom_drop_end f _ pts _ j (by omega)]
    simp
  | succ k ih =>
    intro j hj
    have hlt : j + 1 < pts.length := by omega
    have hj0 : j < pts.length := by omega
    rw [parityMultiFrom_drop f _ pts j hlt, ih (j + 1) (by omega), List.range'_succ,
      List.filter_cons]
    have hp : pts.getD (j + 1 - 1) 0 = pts[j] := by
      rw [Nat.add_sub_cancel, getD_of_lt pts hj0]
    rw [hp, getD_of_lt pts hlt, getD_of_lt pts h0]
    by_cases hskip : j + 1 ≠ 1 ∧ pts[0] = pts[j]
    · have h2 : 2 ≤ j + 1 := by omega
      rw [if_pos hskip]
      simp [h2, hskip.2]
    · rw [if_neg hskip]
      have hk : (decide (2 ≤ j + 1) && decide (pts[j] = pts[0])) = false := by
        rw [Bool.and_eq_false_iff]
        by_cases h2 : 2 ≤ j + 1
        · right
          rw [decide_eq_false_iff_not]
          intro he
          exact hskip ⟨by omega, he.symm⟩
        · left
          exact decide_eq_false h2
      rw [hk]
      cases f pts[j] pts[j + 1]
      · simp
      · simp only [Bool.not_false, Bool.and_true, if_true, List.length_cons, decide_odd_succ]
        exact Bool.true_xor _

theorem parityMultiFrom_eq_crossings (f : Ptr → Ptr → Bool) (pts : List Ptr)
    (h0 : 0 < pts.length) :
    parityMultiFrom f pts[0] 1 pts = decide (Odd (crossingsMulti f pts)) := by
  unfold crossingsMulti
  have h := parityMultiFrom_count f pts h0 (pts.length - 1) 0 (by omega)
  simpa using h

theorem edgeResult_eq (next : ℚ → ℚ) (hnext : ∀ x, x < next x) (fuel : Nat) (hf : 2 ≤ fuel)
    {s : State} {point a b : Ptr} {P A B : Point}
    (hP : deref s point = .ok P) (hA : deref s a = .ok A) (hB : deref s b = .ok B) :
    edgeResult next fuel s point a b = raycastVal next P A B := by
  obtain ⟨t, ht, _⟩ := intersectsWithRaycast_spec next hnext fuel hf hP hA hB
  unfold edgeResult
  rw [ht]

theorem edgeResult_eq_edgeVal (next : ℚ → ℚ) (hnext : ∀ x, x < next x) (fuel : Nat)
    (hf : 2 ≤ fuel) (s : State) (point : Ptr) (P : Point) (hP : deref s point = .ok P)
    (pts : List Ptr) (hv : ∀ q ∈ pts, ∃ v, deref s q = .ok v) :
    ∀ a ∈ pts, ∀ b ∈ pts, edgeVal next s P a b = edgeResult next fuel s point a b := by
  intro a ha b hb
  have hd := deref_valOf_of_valid hv
  rw [edgeResult_eq next hnext fuel hf hP (hd a ha) (hd b hb)]
  rfl

/-- C11: in the single-contour case (at least 3 points, the last element the identical
object as the first) `Contains(P)` returns whether the number of indices `i` in `1..n-1`
with `intersectsWithRaycast(P, points[i-1], points[i])` true is odd; every such edge
counts, wherever else the first point object occurs. -/
theorem C11_single_contour_parity (next : ℚ → ℚ) (hnext : ∀ x, x < next x) (fuel : Nat)
    (hf : 2 ≤ fuel) (s : State) (point : Ptr) (P : Point) (hP : deref s point = .ok P)
    (hv : ∀ q ∈ s.poly.points, ∃ v, deref s q = .ok v) (hlen : 3 ≤ s.poly.points.length)
    (hid : s.poly.points[s.poly.points.length - 1]? = s.poly.points[0]?) :
    ∃ u, Contains next fuel s point =
      .ok (decide (Odd (crossings (edgeResult next fuel s point) s.poly.points)), u) := by
  obtain ⟨u, hu, _⟩ := Contains_single next hnext fuel hf s point P hP hv hlen hid
  refine ⟨u, ?_⟩
  rw [hu, parityFrom_congr _ _ _
    (edgeResult_eq_edgeVal next hnext fuel hf s point P hP _ hv), parityFrom_eq_crossings]

/-- Witness of C11: the ring `[A,B,C,A,D,E,A]`, whose first point object also occurs in
the middle. -/
theorem C11_single_contour_parity_witness :
    ∃ u, Contains stepNext 2 pinchedRing 5 =
      .ok (decide (Odd (crossings (edgeResult stepNext 2 pinchedRing 5)
        pinchedRing.poly.points)), u) :=
  C11_single_contour_parity stepNext stepNext_lt 2 (le_refl 2) pinchedRing 5 ⟨1, 3⟩ rfl
    (valid_of_lt (by decide)) (by decide) (by decide)

/-- C16: in the multi-contour case (at least 3 points, the last element not the identical
object as the first) `Contains(P)` returns whether the number of indices `i` in `1..n-1`
is odd for which `intersectsWithRaycast(P, points[i-1], points[i])` is true and not
(`i ≥ 2` and `points[i-1]` is the identical object as `points[0]`): only edges that start
at a later occurrence of the first point object are left out. -/
theorem C16_multi_contour_parity (next : ℚ → ℚ) (hnext : ∀ x, x < next x) (fuel : Nat)
    (hf : 2 ≤ fuel) (s : State) (point : Ptr) (P : Point) (hP : deref s point = .ok P)
    (hv : ∀ q ∈ s.poly.points, ∃ v, deref s q = .ok v) (hlen : 3 ≤ s.poly.points.length)
    (hid : s.poly.points[s.poly.points.length - 1]? ≠ s.poly.points[0]?) :
    ∃ u, Contains next fuel s point =
      .ok (decide (Odd (crossingsMulti (edgeResult next fuel s point) s.poly.points)), u) := by
  obtain ⟨u, hu, _⟩ := Contains_multi next hnext fuel hf s point P hP hv hlen hid
  refine ⟨u, ?_⟩
  rw [hu, parityMultiFrom_congr _ _ _ _ _
    (edgeResult_eq_edgeVal next hnext fuel hf s point P hP _ hv),
    parityMultiFrom_eq_crossings _ _ (by omega)]

/-- Witness of C16: the square with a square hole, query point `(4,4)`. -/
theorem C16_multi_contour_parity_witness :
    ∃ u, Contains stepNext 2 squareWithHole 8 =
      .ok (decide (Odd (crossingsMulti (edgeResult stepNext 2 squareWithHole 8)
        squareWithHole.poly.points)), u) :=
  C16_multi_contour_parity stepNext stepNext_lt 2 (le_refl 2) squareWithHole 8 ⟨4, 4⟩ rfl
    (valid_of_lt (by decide)) (by decide) (by decide)

theorem perturbVal_ge (next : ℚ → ℚ) (hnext : ∀ x, x < next x) (pl sl el : ℚ) :
    pl ≤ perturbVal next pl sl el := by
  have h1 := hnext pl
  have h2 := hnext (next pl)
  unfold perturbVal
  split_ifs <;> linarith

theorem raycastBody_right (pv sv ev : Point) (h : ev.lng < pv.lng) :
    raycastBody pv sv ev = false := by
  unfold raycastBody
  rw [if_pos (Or.inr h)]

theorem raycastVal_ge_max (next : ℚ → ℚ) (hnext : ∀ x, x < next x) (P A B : Point)
    (h : max A.lng B.lng ≤ P.lng) : raycastVal next P A B = false := by
  unfold raycastVal
  by_cases hsw : A.lng > B.lng
  · simp only [if_pos hsw]
    apply raycastBody_right
    have hge := perturbVal_ge next hnext P.lng B.lng A.lng
    have hne := (perturbVal_ne next hnext P.lng B.lng A.lng).2
    have hm : A.lng ≤ P.lng := (le_max_left _ _).trans h
    exact lt_of_le_of_ne (hm.trans hge) (Ne.symm hne)
  · simp only [if_neg hsw]
    apply raycastBody_right
    have hge := perturbVal_ge next hnext P.lng A.lng B.lng
    have hne := (perturbVal_ne next hnext P.lng A.lng B.lng).2
    have hm : B.lng ≤ P.lng := (le_max_right _ _).trans h
    exact lt_of_le_of_ne (hm.trans hge) (Ne.symm hne)

/-- C14: with `next` strictly increasing, the edge test returns false whenever `P.lng` is
below the smaller endpoint `lng` or at least the larger endpoint `lng`; in particular it
returns false for every edge whose endpoints have the same `lng`. -/
theorem C14_span_handling (next : ℚ → ℚ) (hnext : ∀ x, x < next x) (fuel : Nat)
    (hf : 2 ≤ fuel) (s : State) (point a b : Ptr) (P A B : Point)
    (hP : deref s point = .ok P) (hA : deref s a = .ok A) (hB : deref s b = .ok B) :
    ((P.lng < min A.lng B.lng ∨ max A.lng B.lng ≤ P.lng) →
        ∃ t, intersectsWithRaycast next fuel s point a b = .ok (false, t)) ∧
    (A.lng = B.lng → ∃ t, intersectsWithRaycast next fuel s point a b = .ok (false, t)) := by
  obtain ⟨t, ht, _⟩ := intersectsWithRaycast_spec next hnext fuel hf hP hA hB
  have key : (P.lng < min A.lng B.lng ∨ max A.lng B.lng ≤ P.lng) →
      raycastVal next P A B = false := by
    rintro (h | h)
    · exact raycastVal_left next P A B (lt_of_lt_of_le h (min_le_left _ _))
        (lt_of_lt_of_le h (min_le_right _ _))
    · exact raycastVal_ge_max next hnext P A B h
  constructor
  · intro h
    exact ⟨t, by rw [ht, key h]⟩
  · intro he
    refine ⟨t, ?_⟩
    rw [ht, key ?_]
    rw [he, min_self, max_self]
    exact lt_or_le _ _

/-- Witness of C14: the point `(lat 1,lng 2)` against the edge `(0,0)`-`(4,2)`, whose
larger endpoint `lng` is 2, and against a vertical edge at `lng` 2. -/
theorem C14_span_handling_witness :
    (∃ t, intersectsWithRaycast stepNext 2 spanEdge 3 0 1 = .ok (false, t)) ∧
    (∃ t, intersectsWithRaycast stepNext 2 spanEdge 3 1 2 = .ok (false, t)) :=
  ⟨(C14_span_handling stepNext stepNext_lt 2 (le_refl 2) spanEdge 3 0 1 ⟨1, 2⟩ ⟨0, 0⟩ ⟨4, 2⟩
      rfl rfl rfl).1 (Or.inr (by norm_num)),
   (C14_span_handling stepNext stepNext_lt 2 (le_refl 2) spanEdge 3 1 2 ⟨1, 2⟩ ⟨4, 2⟩ ⟨7, 2⟩
      rfl rfl rfl).2 rfl⟩

theorem error_bind {α β : Type} (e : Fault) (f : α → Except Fault β) :
    ((Except.error e : Except Fault α) >>= f) = Except.error e := rfl

theorem deref_error {s : State} {q : Ptr} {e : Fault} (h : deref s q = .error e) :
    e = .nilDeref := by
  unfold deref at h
  cases hq : s.heap[q]? with
  | none =>
    rw [hq] at h
    exact (Except.error.inj h).symm
  | some v =>
    rw [hq] at h
    cases h

theorem perturbLoop_comm (next : ℚ → ℚ) :
    ∀ (fuel : Nat) (s : State) (point a b : Ptr),
      perturbLoop next fuel s point a b = perturbLoop next fuel s point b a := by
  intro fuel
  induction fuel with
  | zero =>
    intro s point a b
    unfold perturbLoop
    cases hp : deref s point with
    | error e => rfl
    | ok pv =>
      cases ha : deref s a with
      | error e1 =>
        cases hb : deref s b with
        | error e2 =>
          simp only [ok_bind, error_bind, deref_error ha, deref_error hb]
        | ok B => simp only [ok_bind, error_bind]
      | ok A =>
        cases hb : deref s b with
        | error e2 => simp only [ok_bind, error_bind]
        | ok B =>
          simp only [ok_bind]
          by_cases hc : pv.lng = A.lng ∨ pv.lng = B.lng
          · rw [if_pos hc, if_pos hc.symm]
          · rw [if_neg hc, if_neg (fun h => hc h.symm)]
  | succ fuel ih =>
    intro s point a b
    unfold perturbLoop
    cases hp : deref s point with
    | error e => rfl
    | ok pv =>
      cases ha : deref s a with
      | error e1 =>
        cases hb : deref s b with
        | error e2 =>
          simp only [ok_bind, error_bind, deref_error ha, deref_error hb]
        | ok B => simp only [ok_bind, error_bind]
      | ok A =>
        cases hb : deref s b with
        | error e2 => simp only [ok_bind, error_bind]
        | ok B =>
          simp only [ok_bind]
          by_cases hc : pv.lng = A.lng ∨ pv.lng = B.lng
          · rw [if_pos hc, if_pos hc.symm]
            exact ih _ _ a b
          · rw [if_neg hc, if_neg (fun h => hc h.symm)]

theorem perturbLoop_ok (next : ℚ → ℚ) :
    ∀ (fuel : Nat) (s : State) (point a b q : Ptr) (t : State),
      perturbLoop next fuel s point a b = .ok (q, t) →
      Extends s t ∧ ∃ pv A B, deref t q = .ok pv ∧ deref s a = .ok A ∧ deref s b = .ok B ∧
        pv.lng ≠ A.lng ∧ pv.lng ≠ B.lng := by
  intro fuel
  induction fuel with
  | zero =>
    intro s point a b q t h
    unfold perturbLoop at h
    cases hp : deref s point with
    | error e => rw [hp] at h; cases h
    | ok pv =>
      cases ha : deref s a with
      | error e1 => rw [hp, ha] at h; cases h
      | ok A =>
        cases hb : deref s b with
        | error e2 => rw [hp, ha, hb] at h; cases h
        | ok B =>
          rw [hp, ha, hb] at h
          simp only [ok_bind] at h
          by_cases hc : pv.lng = A.lng ∨ pv.lng = B.lng
          · rw [if_pos hc] at h
            cases h
          · rw [if_neg hc] at h
            cases h
            exact ⟨Extends.refl _, pv, A, B, hp, rfl, rfl,
              fun h1 => hc (Or.inl h1), fun h2 => hc (Or.inr h2)⟩
  | succ fuel ih =>
    intro s point a b q t h
    unfold perturbLoop at h
    cases hp : deref s point with
    | error e => rw [hp] at h; cases h
    | ok pv =>
      cases ha : deref s a with
      | error e1 => rw [hp, ha] at h; cases h
      | ok A =>
        cases hb : deref s b with
        | error e2 => rw [hp, ha, hb] at h; cases h
        | ok B =>
          rw [hp, ha, hb] at h
          simp only [ok_bind] at h
          by_cases hc : pv.lng = A.lng ∨ pv.lng = B.lng
          · rw [if_pos hc] at h
            have hx := NewPoint_extends s pv.lat (next pv.lng)
            obtain ⟨hx2, pv2, A2, B2, hq, ha2, hb2, n1, n2⟩ := ih _ _ a b q t h
            rw [deref_extends hx ha] at ha2
            rw [deref_extends hx hb] at hb2
            cases ha2
            cases hb2
            exact ⟨hx.trans hx2, pv2, A, B, hq, rfl, rfl, n1, n2⟩
          · rw [if_neg hc] at h
            cases h
            exact ⟨Extends.refl _, pv, A, B, hp, rfl, rfl,
              fun h1 => hc (Or.inl h1), fun h2 => hc (Or.inr h2)⟩

theorem raycastBody_same_lng (pv sv ev : Point) (he : sv.lng = ev.lng)
    (hne : pv.lng ≠ sv.lng) : raycastBody pv sv ev = false := by
  unfold raycastBody
  rcases lt_or_gt_of_ne hne with h | h
  · rw [if_pos (Or.inl h)]
  · rw [if_pos (Or.inr (he ▸ h))]

theorem intersectsWithRaycast_same_lng (next : ℚ → ℚ) (fuel : Nat) (s : State)
    (point a b : Ptr) (A B : Point) (hA : deref s a = .ok A) (hB : deref s b = .ok B)
    (he : A.lng = B.lng) :
    intersectsWithRaycast next fuel s point a b =
      (perturbLoop next fuel s point a b >>= fun r => pure (false, r.2)) := by
  unfold intersectsWithRaycast
  simp only [hA, hB, ok_bind, gt_iff_lt, if_neg (not_lt.mpr he.le)]
  cases hl : perturbLoop next fuel s point a b with
  | error e => rfl
  | ok r =>
    obtain ⟨q, t⟩ := r
    obtain ⟨hx, pv, A2, B2, hq, ha2, hb2, n1, _⟩ := perturbLoop_ok next fuel s point a b q t hl
    rw [hA] at ha2
    rw [hB] at hb2
    cases ha2
    cases hb2
    simp only [ok_bind, hq, deref_extends hx hA, deref_extends hx hB,
      raycastBody_same_lng pv A B he n1]

/-- On finite coordinates the edge test does not depend on the direction of the edge:
`intersectsWithRaycast(P, a, b)` and `intersectsWithRaycast(P, b, a)` have the same
outcome (result, final state, or fault), also when both endpoints have the same `lng`
and no swap happens. -/
theorem intersectsWithRaycast_comm (next : ℚ → ℚ) (fuel : Nat) (s : State) (point a b : Ptr) :
    intersectsWithRaycast next fuel s point a b =
      intersectsWithRaycast next fuel s point b a := by
  cases hA : deref s a with
  | error e1 =>
    cases hB : deref s b with
    | error e2 =>
      unfold intersectsWithRaycast
      simp only [hA, hB, error_bind, deref_error hA, deref_error hB]
    | ok B =>
      unfold intersectsWithRaycast
      simp only [hA, hB, ok_bind, error_bind]
  | ok A =>
    cases hB : deref s b with
    | error e2 =>
      unfold intersectsWithRaycast
      simp only [hA, hB, ok_bind, error_bind]
    | ok B =>
      rcases lt_trichotomy A.lng B.lng with h | h | h
      · unfold intersectsWithRaycast
        simp only [hA, hB, ok_bind, gt_iff_lt, if_neg (not_lt.mpr h.le), if_pos h]
      · rw [intersectsWithRaycast_same_lng next fuel s point a b A B hA hB h,
          intersectsWithRaycast_same_lng next fuel s point b a B A hB hA h.symm,
          perturbLoop_comm next fuel s point a b]
      · unfold intersectsWithRaycast
        simp only [hA, hB, ok_bind, gt_iff_lt, if_neg (not_lt.mpr h.le), if_pos h]

theorem parityMultiFrom_no_skip (f : Ptr → Ptr → Bool) (p0 : Ptr) :
    ∀ (l : List Ptr) (i : Nat), (∀ x ∈ l.dropLast, x ≠ p0) →
      parityMultiFrom f p0 i l = parityFrom f l
  | [], _, _ => rfl
  | [_], _, _ => rfl
  | a :: b :: rest, i, h => by
    have ha : a ≠ p0 := h a (by simp [List.dropLast])
    have hrest : ∀ x ∈ (b :: rest).dropLast, x ≠ p0 := by
      intro x hx
      exact h x (by simp only [List.dropLast_cons₂, List.mem_cons]; exact Or.inr hx)
    rw [parityMultiFrom, parityFrom, parityMultiFrom_no_skip f p0 (b :: rest) (i + 1) hrest,
      if_neg (fun hc => ha hc.2.symm)]

theorem parityMultiFrom_ring (f : Ptr → Ptr → Bool) (a z : Ptr) (mid : List Ptr)
    (hnot : a ∉ mid) :
    parityMultiFrom f a 1 (a :: (mid ++ [z])) = parityFrom f (a :: (mid ++ [z])) := by
  cases mid with
  | nil => simp [parityMultiFrom, parityFrom]
  | cons b rest =>
    have hrest : ∀ x ∈ (b :: (rest ++ [z])).dropLast, x ≠ a := by
      intro x hx
      have hd : (b :: (rest ++ [z])).dropLast = b :: rest := by
        rw [← List.cons_append, List.dropLast_concat]
      rw [hd] at hx
      rintro rfl
      exact hnot hx
    simp only [List.cons_append]
    rw [parityMultiFrom, parityFrom, parityMultiFrom_no_skip f a _ 2 hrest]
    simp

theorem parityFrom_last_congr (f : Ptr → Ptr → Bool) (z w : Ptr) (h : ∀ y, f y z = f y w) :
    ∀ (mid : List Ptr) (a : Ptr),
      parityFrom f (a :: (mid ++ [z])) = parityFrom f (a :: (mid ++ [w]))
  | [], a => by simp [parityFrom, h a]
  | b :: rest, a => by
    simp only [List.cons_append]
    rw [parityFrom, parityFrom, parityFrom_last_congr f z w h rest b]

theorem ring_last (a z : Ptr) (mid : List Ptr) :
    (a :: (mid ++ [z]))[(a :: (mid ++ [z])).length - 1]? = some z := by
  rw [← List.getLast?_eq_getElem?, ← List.cons_append, List.getLast?_concat]

theorem ring_length (a z : Ptr) (mid : List Ptr) (hmid : mid ≠ []) :
    3 ≤ (a :: (mid ++ [z])).length := by
  cases mid with
  | nil => exact absurd rfl hmid
  | cons b rest => simp

/-- C15: for a point sequence `a :: mid ++ [z]` of at least 3 points in which the first
point object `a` does not occur in `mid` (the indices `1..n-2`), the loop of the branch
without holes and the loop of the branch with holes return the same result; hence a
single ring gives the same `Contains(P)` whether it is closed with the first point object
itself or with a distinct point object `a2` that has the same coordinates. -/
theorem C15_single_agrees_with_multi (next : ℚ → ℚ) (hnext : ∀ x, x < next x) (fuel : Nat)
    (hf : 2 ≤ fuel) (s : State) (point : Ptr) (P : Point) (a z : Ptr) (mid : List Ptr)
    (hP : deref s point = .ok P) (hpts : s.poly.points = a :: (mid ++ [z]))
    (hmid : mid ≠ []) (hnot : a ∉ mid)
    (hv : ∀ q ∈ s.poly.points, ∃ v, deref s q = .ok v) :
    (∃ r u w,
      loopSingle (intersectsWithRaycast next fuel) point s.poly.points.length 1 false s =
        .ok (r, u) ∧
      loopMulti (intersectsWithRaycast next fuel) point s.poly.points.length 1 a false s =
        .ok (r, w)) ∧
    (z = a → ∀ a2 : Ptr, a2 ≠ a → deref s a2 = deref s a →
      ∃ r u w, Contains next fuel s point = .ok (r, u) ∧
        Contains next fuel ⟨s.heap, ⟨a :: (mid ++ [a2])⟩⟩ point = .ok (r, w)) := by
  have hT := testOk_raycast next hnext fuel hf s point s.poly.points P (valOf s) hP
    (deref_valOf_of_valid hv)
  constructor
  · obtain ⟨u, hu, _⟩ := loopSingle_spec _ point _ s hT s.poly.points.length 0 false s
      (Extends.refl s) (by omega)
    obtain ⟨w, hw, _⟩ := loopMulti_spec _ point _ s a hT s.poly.points.length 0 false s
      (Extends.refl s) (by omega)
    refine ⟨_, u, w, hu, ?_⟩
    rw [hw]
    simp only [List.drop_zero, Bool.false_xor, zero_add]
    rw [hpts, parityMultiFrom_ring _ a z mid hnot]
  · intro hz a2 hne hsame
    subst hz
    have hlen : 3 ≤ s.poly.points.length := by
      rw [hpts]; exact ring_length z z mid hmid
    have hid : s.poly.points[s.poly.points.length - 1]? = s.poly.points[0]? := by
      rw [hpts, ring_last, List.getElem?_cons_zero]
    obtain ⟨u, hu, _⟩ := Contains_single next hnext fuel hf s point P hP hv hlen hid
    obtain ⟨vz, hvz⟩ := hv z (by rw [hpts]; simp)
    have hv2 : ∀ q ∈ (⟨s.heap, ⟨z :: (mid ++ [a2])⟩⟩ : State).poly.points,
        ∃ v, deref (⟨s.heap, ⟨z :: (mid ++ [a2])⟩⟩ : State) q = .ok v := by
      intro q hq
      simp only [List.mem_cons, List.mem_append, List.mem_singleton, List.not_mem_nil,
        or_false] at hq
      rcases hq with rfl | hq | rfl
      · exact ⟨vz, hvz⟩
      · exact hv q (by rw [hpts]; simp [hq])
      · exact ⟨vz, hsame.trans hvz⟩
    have hid2 : (⟨s.heap, ⟨z :: (mid ++ [a2])⟩⟩ : State).poly.points[
        (⟨s.heap, ⟨z :: (mid ++ [a2])⟩⟩ : State).poly.points.length - 1]? ≠
        (⟨s.heap, ⟨z :: (mid ++ [a2])⟩⟩ : State).poly.points[0]? := by
      show (z :: (mid ++ [a2]))[(z :: (mid ++ [a2])).length - 1]? ≠ (z :: (mid ++ [a2]))[0]?
      rw [ring_last, List.getElem?_cons_zero]
      intro h
      exact hne (Option.some.inj h)
    obtain ⟨w, hw, _⟩ := Contains_multi next hnext fuel hf ⟨s.heap, ⟨z :: (mid ++ [a2])⟩⟩
      point P hP hv2 (ring_length z a2 mid hmid) hid2
    refine ⟨_, u, w, hu, ?_⟩
    rw [hw]
    have hf2 : ∀ y, edgeVal next s P y a2 = edgeVal next s P y z := by
      intro y
      unfold edgeVal
      rw [deref_valOf (hsame.trans hvz), deref_valOf hvz]
    show (Except.ok (parityMultiFrom (edgeVal next s P) z 1 (z :: (mid ++ [a2])), w) :
      Except Fault (Bool × State)) = _
    rw [parityMultiFrom_ring _ z a2 mid hnot, parityFrom_last_congr _ a2 z hf2 mid z, hpts]

/-- Witness of C15: the closed square, its ring closed once with the first point object
and once with the distinct object at address 4. -/
theorem C15_single_agrees_with_multi_witness :
    (∃ r u w,
      loopSingle (intersectsWithRaycast stepNext 2) 5 5 1 false squareTwoClosings =
        .ok (r, u) ∧
      loopMulti (intersectsWithRaycast stepNext 2) 5 5 1 0 false squareTwoClosings =
        .ok (r, w)) ∧
    (∃ r u w, Contains stepNext 2 squareTwoClosings 5 = .ok (r, u) ∧
        Contains stepNext 2 ⟨squareTwoClosings.heap, ⟨[0, 1, 2, 3, 4]⟩⟩ 5 = .ok (r, w)) :=
  ⟨(C15_single_agrees_with_multi stepNext stepNext_lt 2 (le_refl 2) squareTwoClosings 5
      ⟨2, 2⟩ 0 0 [1, 2, 3] rfl rfl (by decide) (by decide) (valid_of_lt (by decide))).1,
   (C15_single_agrees_with_multi stepNext stepNext_lt 2 (le_refl 2) squareTwoClosings 5
      ⟨2, 2⟩ 0 0 [1, 2, 3] rfl rfl (by decide) (by decide) (valid_of_lt (by decide))).2
      rfl 4 (by decide) rfl⟩

theorem loopMulti_step (test : EdgeTest) (point : Ptr) (n j : Nat) (pt : Ptr) (c : Bool)
    (t : State) (hlt : j + 1 < t.poly.points.length) :
    loopMulti test point (n + 1) (j + 1) pt c t =
      if j + 1 ≠ 1 ∧ pt = t.poly.points.getD j 0 then
        loopMulti test point n (j + 2) (t.poly.points.getD j 0) c t
      else
        test t point (t.poly.points.getD j 0) (t.poly.points.getD (j + 1) 0) >>= fun r =>
          loopMulti test point n (j + 2) pt (if r.1 then !c else c) r.2 := by
  have hj : j < t.poly.points.length := by omega
  conv_lhs => unfold loopMulti
  rw [if_pos hlt]
  simp only [index_pred hj, index_nat hlt, ok_bind, getD_of_lt _ hj, getD_of_lt _ hlt]

/-- C13, amended: in the multi-contour case `Contains` runs the loop from `i = 1` with the
marker `points[0]`; the iteration `i = 1` always tests its edge; for `2 ≤ i < n` the
iteration skips the edge `(points[i-1], points[i])` (no test, accumulator and state
unchanged) exactly when `points[i-1]` is the identical object as `points[0]`, and
otherwise tests it and flips the accumulator iff the test holds; the marker stays
`points[0]` in both cases. -/
theorem C13_skip_rule (test : EdgeTest) (point : Ptr) (s : State)
    (hlen : 3 ≤ s.poly.points.length)
    (hid : s.poly.points[s.poly.points.length - 1]? ≠ s.poly.points[0]?) :
    ContainsWith test s point =
      loopMulti test point s.poly.points.length 1 (s.poly.points.getD 0 0) false s ∧
    (∀ (n : Nat) (c : Bool) (t : State), t.poly = s.poly →
      loopMulti test point (n + 1) 1 (s.poly.points.getD 0 0) c t =
        test t point (s.poly.points.getD 0 0) (s.poly.points.getD 1 0) >>= fun r =>
          loopMulti test point n 2 (s.poly.points.getD 0 0) (if r.1 then !c else c) r.2) ∧
    (∀ (n i : Nat) (c : Bool) (t : State), t.poly = s.poly → 2 ≤ i →
      i < s.poly.points.length →
      loopMulti test point (n + 1) i (s.poly.points.getD 0 0) c t =
        if s.poly.points.getD (i - 1) 0 = s.poly.points.getD 0 0 then
          loopMulti test point n (i + 1) (s.poly.points.getD 0 0) c t
        else
          test t point (s.poly.points.getD (i - 1) 0) (s.poly.points.getD i 0) >>= fun r =>
            loopMulti test point n (i + 1) (s.poly.points.getD 0 0)
              (if r.1 then !c else c) r.2) := by
  refine ⟨?_, ?_, ?_⟩
  · obtain ⟨m, hm⟩ : ∃ m, s.poly.points.length = m + 1 :=
      ⟨s.poly.points.length - 1, by omega⟩
    have h0 : 0 < s.poly.points.length := by omega
    have hmlt : m < s.poly.points.length := by omega
    have hid2 : s.poly.points[m] ≠ s.poly.points[0] := by
      have hm2 : s.poly.points.length - 1 = m := by omega
      rw [hm2, List.getElem?_eq_getElem hmlt, List.getElem?_eq_getElem h0] at hid
      exact fun h => hid (congrArg some h)
    have hi0 : index s.poly.points 0 = .ok s.poly.points[0] := index_nat h0
    unfold ContainsWith
    simp only [isClosed_of_three hlen, Bool.not_true, Bool.false_eq_true, if_false,
      index_last hm, ok_bind, hi0, if_neg hid2, getD_of_lt _ h0]
  · intro n c t ht
    rw [loopMulti_step test point n 0 _ c t (by rw [ht]; omega), ht]
    simp
  · intro n i c t ht h2 hi
    obtain ⟨j, rfl⟩ : ∃ j, i = j + 1 := ⟨i - 1, by omega⟩
    rw [loopMulti_step test point n j _ c t (by rw [ht]; exact hi), ht, Nat.add_sub_cancel]
    by_cases he : s.poly.points.getD j 0 = s.poly.points.getD 0 0
    · rw [if_pos ⟨by omega, he.symm⟩, if_pos he, he]
    · rw [if_neg (fun h => he h.2.symm), if_neg he]

/-- Witness of C13 (amended): the square with a square hole; the iteration `i = 5`, whose
edge starts at the second occurrence of the first point object, is skipped. -/
theorem C13_skip_rule_witness :
    3 ≤ squareWithHole.poly.points.length ∧
    ContainsWith (intersectsWithRaycast stepNext 2) squareWithHole 9 =
      loopMulti (intersectsWithRaycast stepNext 2) 9 squareWithHole.poly.points.length 1
        (squareWithHole.poly.points.getD 0 0) false squareWithHole ∧
    loopMulti (intersectsWithRaycast stepNext 2) 9 (5 + 1) 5
        (squareWithHole.poly.points.getD 0 0) true squareWithHole =
      if squareWithHole.poly.points.getD (5 - 1) 0 = squareWithHole.poly.points.getD 0 0 then
        loopMulti (intersectsWithRaycast stepNext 2) 9 5 (5 + 1)
          (squareWithHole.poly.points.getD 0 0) true squareWithHole
      else
        intersectsWithRaycast stepNext 2 squareWithHole 9
            (squareWithHole.poly.points.getD (5 - 1) 0)
            (squareWithHole.poly.points.getD 5 0) >>= fun r =>
          loopMulti (intersectsWithRaycast stepNext 2) 9 5 (5 + 1)
            (squareWithHole.poly.points.getD 0 0) (if r.1 then !true else true) r.2 :=
  ⟨by decide,
   (C13_skip_rule (intersectsWithRaycast stepNext 2) 9 squareWithHole (by decide)
      (by decide)).1,
   (C13_skip_rule (intersectsWithRaycast stepNext 2) 9 squareWithHole (by decide)
      (by decide)).2.2 5 5 true squareWithHole rfl (by decide) (by decide)⟩

/-- C13 fails as stated: in the square with a square hole and for the query point
`(1,1)`, the edge of index 5 starts at `points[4]`, which is not the identical object as
`points[3]`, and its edge test holds; yet the loop run from `i = 5` with accumulator true
ends with true, while the rest of the loop, from `i = 6`, started with the flipped
accumulator ends with false: the edge is skipped, and `Contains` returns true. -/
theorem C13_counterexample :
    squareWithHole.poly.points[4]? = some 0 ∧ squareWithHole.poly.points[3]? = some 3 ∧
    intersectsWithRaycast stepNext 2 squareWithHole 9 0 4 = .ok (true, squareWithHole) ∧
    (∃ u, loopMulti (intersectsWithRaycast stepNext 2) 9 6 5 0 true squareWithHole =
      .ok (true, u)) ∧
    (∃ u, loopMulti (intersectsWithRaycast stepNext 2) 9 5 6 0 false squareWithHole =
      .ok (false, u)) ∧
    (∃ u, Contains stepNext 2 squareWithHole 9 = .ok (true, u)) := by
  have hT := testOk_raycast stepNext stepNext_lt 2 (le_refl 2) squareWithHole 9
    squareWithHole.poly.points ⟨1, 1⟩ (valOf squareWithHole) rfl
    (deref_valOf_of_valid (valid_of_lt (by decide)))
  refine ⟨rfl, rfl, ?_, ?_, ?_, ?_⟩
  · rw [@intersectsWithRaycast_plain stepNext 2 squareWithHole 9 0 4 ⟨1, 1⟩ ⟨0, 0⟩ ⟨3, 3⟩
      rfl rfl rfl (by norm_num) (by norm_num)]
    norm_num [raycastBody, slopeTest, fdiv, fge]
  · obtain ⟨u, hu, _⟩ := loopMulti_spec _ 9 _ squareWithHole 0 hT 6 4 true squareWithHole
      (Extends.refl _) (by decide)
    refine ⟨u, ?_⟩
    rw [show (5 : Nat) = 4 + 1 from rfl, hu]
    norm_num [squareWithHole, parityMultiFrom, valOf, raycastVal, perturbVal, raycastBody]
  · obtain ⟨u, hu, _⟩ := loopMulti_spec _ 9 _ squareWithHole 0 hT 5 5 false squareWithHole
      (Extends.refl _) (by decide)
    refine ⟨u, ?_⟩
    rw [show (6 : Nat) = 5 + 1 from rfl, hu]
    norm_num [squareWithHole, parityMultiFrom, valOf, raycastVal, perturbVal, raycastBody]
  · obtain ⟨u, hu⟩ := rect_hole_parity stepNext stepNext_lt 2 (le_refl 2) squareWithHole
      0 1 2 3 4 5 6 7 9 0 10 0 10 3 6 3 6 ⟨1, 1⟩ (by norm_num) (by norm_num) (by norm_num)
      (by norm_num) (by norm_num) (by norm_num) rfl rfl rfl rfl rfl rfl rfl rfl rfl rfl
    refine ⟨u, ?_⟩
    rw [hu]
    norm_num [perturbVal]

/-- C12, at a square with two holes and the query point `(lat 3,lng 4)`, which is inside
the outer square and off both holes: the edges of the outer ring are crossed an odd number
of times and the edges of each hole an even number of times, but the edge that joins the
closing point of the first hole (address 4) to the first point of the second hole
(address 8) is tested and crossed, and `Contains` returns false. -/
theorem C12_second_hole_edge_not_skipped :
    decide (Odd (crossings (edgeResult stepNext 2 twoHoles 12) [0, 1, 2, 3, 0])) = true ∧
    decide (Odd (crossings (edgeResult stepNext 2 twoHoles 12) [4, 5, 6, 7, 4])) = false ∧
    decide (Odd (crossings (edgeResult stepNext 2 twoHoles 12) [8, 9, 10, 11, 8])) = false ∧
    intersectsWithRaycast stepNext 2 twoHoles 12 4 8 = .ok (true, twoHoles) ∧
    (∃ u, Contains stepNext 2 twoHoles 12 = .ok (false, u)) := by
  refine ⟨?_, ?_, ?_, ?_, ?_⟩
  · rw [← parityFrom_eq_crossings, ← parityFrom_congr _ _ _
      (edgeResult_eq_edgeVal stepNext stepNext_lt 2 (le_refl 2) twoHoles 12 ⟨3, 4⟩ rfl
        [0, 1, 2, 3, 0] (valid_of_lt (by decide)))]
    norm_num [twoHoles, parityFrom, edgeVal, valOf, raycastVal, perturbVal, raycastBody]
  · rw [← parityFrom_eq_crossings, ← parityFrom_congr _ _ _
      (edgeResult_eq_edgeVal stepNext stepNext_lt 2 (le_refl 2) twoHoles 12 ⟨3, 4⟩ rfl
        [4, 5, 6, 7, 4] (valid_of_lt (by decide)))]
    norm_num [twoHoles, parityFrom, edgeVal, valOf, raycastVal, perturbVal, raycastBody]
  · rw [← parityFrom_eq_crossings, ← parityFrom_congr _ _ _
      (edgeResult_eq_edgeVal stepNext stepNext_lt 2 (le_refl 2) twoHoles 12 ⟨3, 4⟩ rfl
        [8, 9, 10, 11, 8] (valid_of_lt (by decide)))]
    norm_num [twoHoles, parityFrom, edgeVal, valOf, raycastVal, perturbVal, raycastBody]
  · rw [@intersectsWithRaycast_plain stepNext 2 twoHoles 12 4 8 ⟨3, 4⟩ ⟨1, 1⟩ ⟨5, 5⟩
      rfl rfl rfl (by norm_num) (by norm_num)]
    norm_num [raycastBody, slopeTest, fdiv, fge]
  · obtain ⟨u, hu, _⟩ := Contains_multi stepNext stepNext_lt 2 (le_refl 2) twoHoles 12
      ⟨3, 4⟩ rfl (valid_of_lt (by decide)) (by decide) (by decide)
    refine ⟨u, ?_⟩
    rw [hu]
    norm_num [twoHoles, parityMultiFrom, edgeVal, valOf, raycastVal, perturbVal, raycastBody,
      slopeTest, fdiv, fge]

theorem feq_eq {x y : FVal} (h : feq x y = true) : x = y := by
  cases x <;> cases y <;> simp [feq] at h ⊢
  exact h

theorem feq_self {x : FVal} (h : x ≠ .nan) : feq x x = true := by
  cases x <;> simp [feq] at h ⊢

theorem flt_trichotomy {x y : FVal} (hx : x ≠ .nan) (hy : y ≠ .nan) :
    flt x y = true ∨ flt y x = true ∨ x = y := by
  cases x <;> cases y <;> simp [flt] at hx hy ⊢
  rename_i a b
  rcases lt_trichotomy a b with h | h | h
  · exact Or.inl h
  · exact Or.inr (Or.inr h)
  · exact Or.inr (Or.inl h)

theorem flt_asymm {x y : FVal} (h : flt x y = true) : flt y x = false := by
  cases x <;> cases y <;> simp [flt] at h ⊢
  exact h.le

theorem perturbLoopF_comm (ops : FloatOps) :
    ∀ (fuel : Nat) (p a b : FPoint),
      perturbLoopF ops fuel p a b = perturbLoopF ops fuel p b a := by
  intro fuel
  induction fuel with
  | zero =>
    intro p a b
    unfold perturbLoopF
    rw [Bool.or_comm]
  | succ fuel ih =>
    intro p a b
    unfold perturbLoopF
    simp only [ih ⟨p.lat, ops.next p.lng⟩ a b, Bool.or_comm (feq p.lng a.lng) (feq p.lng b.lng)]

theorem perturbLoopF_exit (ops : FloatOps) (hn : ∀ x, x ≠ .nan → ops.next x ≠ .nan) :
    ∀ (fuel : Nat) (p a b q : FPoint), p.lng ≠ .nan → perturbLoopF ops fuel p a b = some q →
      q.lng ≠ .nan ∧ feq q.lng a.lng = false ∧ feq q.lng b.lng = false := by
  intro fuel
  induction fuel with
  | zero =>
    intro p a b q hp h
    unfold perturbLoopF at h
    by_cases hc : (feq p.lng a.lng || feq p.lng b.lng) = true
    · rw [if_pos hc] at h
      cases h
    · rw [if_neg hc] at h
      cases h
      rw [Bool.or_eq_true, not_or] at hc
      exact ⟨hp, by simpa using hc.1, by simpa using hc.2⟩
  | succ fuel ih =>
    intro p a b q hp h
    unfold perturbLoopF at h
    by_cases hc : (feq p.lng a.lng || feq p.lng b.lng) = true
    · rw [if_pos hc] at h
      exact ih ⟨p.lat, ops.next p.lng⟩ a b q (hn _ hp) h
    · rw [if_neg hc] at h
      cases h
      rw [Bool.or_eq_true, not_or] at hc
      exact ⟨hp, by simpa using hc.1, by simpa using hc.2⟩

theorem raycastBodyF_same_lng (ops : FloatOps) (q a b : FPoint) (hq : q.lng ≠ .nan)
    (ha : a.lng ≠ .nan) (hab : a.lng = b.lng) (hne : feq q.lng a.lng = false) :
    raycastBodyF ops q a b = false := by
  have hcond : (flt q.lng a.lng || fgt q.lng b.lng) = true := by
    rcases flt_trichotomy hq ha with h | h | h
    · rw [h]; rfl
    · rw [← hab]
      unfold fgt
      rw [h, Bool.or_true]
    · rw [h, feq_self ha] at hne
      cases hne
  unfold raycastBodyF
  rw [if_pos hcond]

theorem flt_self (x : FVal) : flt x x = false := by
  cases x <;> simp [flt]

theorem exactOps_next_ne_nan : ∀ x : FVal, x ≠ .nan → exactOps.next x ≠ .nan := by
  intro x hx
  cases x <;> simp [exactOps] at hx ⊢

/-- C17, amended: on float64 values, whatever the rounding of subtraction and division
and whatever `Nextafter` does to values other than `NaN`, the edge test does not depend on
the direction of the edge as long as the `lng` of the query point and of both endpoints
is not `NaN`: `intersectsWithRaycast(P, a, b) = intersectsWithRaycast(P, b, a)`, also when
both endpoints have the same `lng` and no swap happens, and for every `lat`. -/
theorem C17_edge_direction (ops : FloatOps) (hn : ∀ x, x ≠ .nan → ops.next x ≠ .nan)
    (fuel : Nat) (P a b : FPoint) (hP : P.lng ≠ .nan) (ha : a.lng ≠ .nan)
    (hb : b.lng ≠ .nan) :
    intersectsWithRaycastF ops fuel P a b = intersectsWithRaycastF ops fuel P b a := by
  rcases flt_trichotomy ha hb with h | h | h
  · unfold intersectsWithRaycastF
    simp only [fgt, h, flt_asymm h, if_true]
    rfl
  · unfold intersectsWithRaycastF
    simp only [fgt, h, flt_asymm h, if_true]
    rfl
  · unfold intersectsWithRaycastF
    simp only [fgt, h, flt_self, Bool.false_eq_true, if_false]
    rw [perturbLoopF_comm ops fuel P a b]
    cases hl : perturbLoopF ops fuel P b a with
    | none => rfl
    | some q =>
      obtain ⟨hq, hqb, hqa⟩ := perturbLoopF_exit ops hn fuel P b a q hP hl
      simp only [raycastBodyF_same_lng ops q a b hq ha h hqa,
        raycastBodyF_same_lng ops q b a hq hb h.symm hqb]

/-- Witness of C17 (amended): the edge `(lat 4,lng 2)`-`(lat 0,lng 0)` and the point
`(lat 1,lng 1)`, with float64 operations without rounding. -/
theorem C17_edge_direction_witness :
    intersectsWithRaycastF exactOps 2 ⟨.num 1, .num 1⟩ ⟨.num 4, .num 2⟩ ⟨.num 0, .num 0⟩ =
      intersectsWithRaycastF exactOps 2 ⟨.num 1, .num 1⟩ ⟨.num 0, .num 0⟩ ⟨.num 4, .num 2⟩ :=
  C17_edge_direction exactOps exactOps_next_ne_nan 2 ⟨.num 1, .num 1⟩ ⟨.num 4, .num 2⟩
    ⟨.num 0, .num 0⟩ (by simp) (by simp) (by simp)

/-- C17 fails as stated: for `P = (lat 0,lng 1)`, `a = (lat 1,lng NaN)` and
`b = (lat 1,lng 0)` no swap happens in either order and the point is not perturbed;
`intersectsWithRaycast(P, a, b)` is false, since `P.lng > b.lng`, while
`intersectsWithRaycast(P, b, a)` is true, since both span comparisons with `NaN` are false
and `P.lat < b.lat`. -/
theorem C17_counterexample :
    intersectsWithRaycastF exactOps 2 ⟨.num 0, .num 1⟩ ⟨.num 1, .nan⟩ ⟨.num 1, .num 0⟩ =
      some false ∧
    intersectsWithRaycastF exactOps 2 ⟨.num 0, .num 1⟩ ⟨.num 1, .num 0⟩ ⟨.num 1, .nan⟩ =
      some true := by
  constructor
  · norm_num [intersectsWithRaycastF, perturbLoopF, raycastBodyF, flt, fgt, feq]
  · norm_num [intersectsWithRaycastF, perturbLoopF, raycastBodyF, flt, fgt, feq]

theorem raycastBodyF_num (ops : FloatOps)
    (hsub : ∀ a b : ℚ, ops.sub (.num a) (.num b) = .num (a - b))
    (hdiv : ∀ a b : ℚ, ops.div (.num a) (.num b) = fdiv a b) (Q S E : Point) :
    raycastBodyF ops (toF Q) (toF S) (toF E) = raycastBody Q S E := by
  unfold raycastBodyF raycastBody slopeTest toF
  simp only [flt, fgt, hsub, hdiv, Bool.or_eq_true, decide_eq_true_eq, gt_iff_lt]

theorem perturbLoopF_num (ops : FloatOps) (next : ℚ → ℚ)
    (hnext : ∀ q : ℚ, ops.next (.num q) = .num (next q)) :
    ∀ (fuel : Nat) (s : State) (point a b : Ptr) (P A B : Point),
      deref s point = .ok P → deref s a = .ok A → deref s b = .ok B →
      (perturbLoopF ops fuel (toF P) (toF A) (toF B) = none ∧
        perturbLoop next fuel s point a b = .error .outOfFuel) ∨
      ∃ q t Q, perturbLoopF ops fuel (toF P) (toF A) (toF B) = some (toF Q) ∧
        perturbLoop next fuel s point a b = .ok (q, t) ∧ Extends s t ∧
        deref t q = .ok Q := by
  intro fuel
  induction fuel with
  | zero =>
    intro s point a b P A B hP hA hB
    unfold perturbLoopF perturbLoop
    simp only [hP, hA, hB, ok_bind]
    by_cases hc : P.lng = A.lng ∨ P.lng = B.lng
    · left
      have hc2 : (feq (toF P).lng (toF A).lng || feq (toF P).lng (toF B).lng) = true := by
        simpa [toF, feq] using hc
      rw [if_pos hc2, if_pos hc]
      exact ⟨rfl, rfl⟩
    · right
      have hc2 : ¬ (feq (toF P).lng (toF A).lng || feq (toF P).lng (toF B).lng) = true := by
        simpa [toF, feq] using hc
      rw [if_neg hc2, if_neg hc]
      exact ⟨point, s, P, rfl, rfl, Extends.refl s, hP⟩
  | succ fuel ih =>
    intro s point a b P A B hP hA hB
    by_cases hc : P.lng = A.lng ∨ P.lng = B.lng
    · have hc2 : (feq (toF P).lng (toF A).lng || feq (toF P).lng (toF B).lng) = true := by
        simpa [toF, feq] using hc
      have hx := NewPoint_extends s P.lat (next P.lng)
      have hF : perturbLoopF ops (fuel + 1) (toF P) (toF A) (toF B) =
          perturbLoopF ops fuel (toF ⟨P.lat, next P.lng⟩) (toF A) (toF B) := by
        conv_lhs => unfold perturbLoopF
        simp only [if_pos hc2]
        simp only [toF, hnext]
      rw [hF, perturbLoop_step next fuel hP hA hB hc]
      rcases ih _ _ a b ⟨P.lat, next P.lng⟩ A B (deref_NewPoint s P.lat (next P.lng))
        (deref_extends hx hA) (deref_extends hx hB) with h | ⟨q, t, Q, h1, h2, h3, h4⟩
      · exact Or.inl h
      · exact Or.inr ⟨q, t, Q, h1, h2, hx.trans h3, h4⟩
    · right
      have hc2 : ¬ (feq (toF P).lng (toF A).lng || feq (toF P).lng (toF B).lng) = true := by
        simpa [toF, feq] using hc
      refine ⟨point, s, P, ?_, perturbLoop_exit next (fuel + 1) hP hA hB hc,
        Extends.refl s, hP⟩
      unfold perturbLoopF
      rw [if_neg hc2]

/-- On finite coordinates the edge test on float64 values, with operations that do not
round, returns what the edge test on the heap of rational points returns. -/
theorem intersectsWithRaycastF_agrees (ops : FloatOps) (next : ℚ → ℚ)
    (hnext : ∀ q : ℚ, ops.next (.num q) = .num (next q))
    (hsub : ∀ a b : ℚ, ops.sub (.num a) (.num b) = .num (a - b))
    (hdiv : ∀ a b : ℚ, ops.div (.num a) (.num b) = fdiv a b)
    (fuel : Nat) (s : State) (point a b : Ptr) (P A B : Point)
    (hP : deref s point = .ok P) (hA : deref s a = .ok A) (hB : deref s b = .ok B) :
    intersectsWithRaycastF ops fuel (toF P) (toF A) (toF B) =
      outcome (intersectsWithRaycast next fuel s point a b) := by
  unfold intersectsWithRaycastF intersectsWithRaycast
  simp only [hA, hB, ok_bind]
  by_cases hsw : A.lng > B.lng
  · have hsw2 : fgt (toF A).lng (toF B).lng = true := by simpa [toF, fgt, flt] using hsw
    simp only [hsw2, if_true, if_pos hsw]
    rcases perturbLoopF_num ops next hnext fuel s point b a P B A hP hB hA with
      ⟨h1, h2⟩ | ⟨q, t, Q, h1, h2, h3, h4⟩
    · rw [h1, h2]
      rfl
    · rw [h1, h2]
      simp only [ok_bind, h4, deref_extends h3 hA, deref_extends h3 hB,
        raycastBodyF_num ops hsub hdiv]
      rfl
  · have hsw2 : fgt (toF A).lng (toF B).lng = false := by simpa [toF, fgt, flt] using hsw
    simp only [hsw2, Bool.false_eq_true, if_false, if_neg hsw]
    rcases perturbLoopF_num ops next hnext fuel s point a b P A B hP hA hB with
      ⟨h1, h2⟩ | ⟨q, t, Q, h1, h2, h3, h4⟩
    · rw [h1, h2]
      rfl
    · rw [h1, h2]
      simp only [ok_bind, h4, deref_extends h3 hA, deref_extends h3 hB,
        raycastBodyF_num ops hsub hdiv]
      rfl

/-- A `NaN` in the `lng` of the query point can break the symmetry as well: for
`P = (lat 0,lng NaN)`, `a = (lat NaN,lng 0)` and `b = (lat 1,lng 0)` the edge test is false
on `(P, a, b)`, where every comparison and the slope comparison involve `NaN`, and true on
`(P, b, a)`, where `P.lat < b.lat`. -/
theorem intersectsWithRaycastF_nan_point :
    intersectsWithRaycastF exactOps 2 ⟨.num 0, .nan⟩ ⟨.nan, .num 0⟩ ⟨.num 1, .num 0⟩ =
      some false ∧
    intersectsWithRaycastF exactOps 2 ⟨.num 0, .nan⟩ ⟨.num 1, .num 0⟩ ⟨.nan, .num 0⟩ =
      some true := by
  constructor
  · norm_num [intersectsWithRaycastF, perturbLoopF, raycastBodyF, flt, fgt, feq, fge,
      exactOps, fsubExact, fdivExact]
  · norm_num [intersectsWithRaycastF, perturbLoopF, raycastBodyF, flt, fgt, feq]

end Geo
